import Mathlib

/-!
# limitmap: a map of counting semaphores keyed by string

Shallow embedding of `src/limitmap.go`.

* `uint` fields (`max`, `value`) are natural numbers below `UINT_MOD`; the two
  places where the source does arithmetic that can leave that range
  (`uint(s.value)+1` and `s.value++` in `Semaphore.Acquire`) reduce modulo
  `UINT_MOD`.
* `refs` (Go `int`) is only incremented, decremented and compared with 0; it is
  an integer here, without wrap-around.
* `sync.Cond` and `sync.Mutex` carry no data; blocking is a result
  (`AcquireResult.waits`, `Outcome.blocked`), never a state change. What each
  call does to the locks is the list `AcquireOps` / `ReleaseOps`.
* Executions are lists of steps. In `System` a step is the first half of
  `Acquire`, its grant, or a whole `Release`; in `Fine` every critical section
  is a step of its own and a semaphore that left the map stays with the calls
  of `Release` that still point to it.
* `sync.WaitGroup` is its counter: `Add(1)` adds one, `Done()` subtracts one
  and panics when the counter would become negative. The library keeps the
  counter in 32 bits; statements about the states the code can reach say so
  with `wg < WG_LIMIT`.
* A panic is a result that carries the state the panicking call leaves behind.
-/

namespace Limitmap

/-- Number of values of Go's `uint` on a 64-bit platform. -/
def UINT_MOD : Nat := 2 ^ 64

/-- Bound on the counter of a `sync.WaitGroup` (Go standard library): the counter
is a signed 32-bit number and `Add` panics when it would pass `2^31 - 1`, so no
state the code reaches has `2^31` or more calls outstanding. The embedding keeps
the counter a natural number and names this bound where a statement is about
the states the code can reach. -/
def WG_LIMIT : Nat := 2 ^ 31

/-- The panics of the package, one constructor per `panic(...)` site, plus the
one raised by `sync.WaitGroup` when its counter would become negative. -/
inductive Panic where
  /-- "Semaphore with max=0 can never be acquired" -/
  | semMaxZero
  /-- "Semaphore Release without Acquire" -/
  | semReleaseWithoutAcquire
  /-- "Semaphore Acquire overflow" -/
  | semAcquireOverflow
  /-- "LimitMap: key not in map. Possible reason: Release without Acquire." -/
  | keyNotInMap
  /-- "LimitMap internal error: refs < 0." -/
  | refsNegative
  /-- "Semaphore Release overflow" -/
  | semReleaseOverflow
  /-- "sync: negative WaitGroup counter" -/
  | wgNegative
deriving DecidableEq, Repr

/-- A call either returns a value or panics. -/
inductive Res (α : Type) where
  | ok (a : α)
  | panic (p : Panic)
deriving DecidableEq, Repr

/-- Fields of `type Semaphore struct` that carry data. -/
structure Semaphore where
  refs : Int
  max : Nat
  value : Nat
deriving DecidableEq, Repr

/-- `func NewSemaphore(max uint) *Semaphore`. -/
def NewSemaphore (max : Nat) : Res Semaphore :=
  if max = 0 then .panic .semMaxZero
  else .ok { refs := 0, max := max, value := 0 }

/-- What one pass through the loop of `Semaphore.Acquire` does: return, or
`s.wait.Wait()`. -/
inductive AcquireResult where
  | granted (s : Semaphore) (x : Nat)
  | waits (s : Semaphore)
deriving DecidableEq, Repr

/-- `func (s *Semaphore) Acquire() uint`: the test `uint(s.value)+1 <= s.max`
and the increment `s.value++` are `uint` arithmetic. -/
def Semaphore.Acquire (s : Semaphore) : AcquireResult :=
  if (s.value + 1) % UINT_MOD ≤ s.max then
    .granted { s with value := (s.value + 1) % UINT_MOD } ((s.value + 1) % UINT_MOD)
  else
    .waits s

/-- How `Semaphore.Release` ends: it returns `result`, or it panics and leaves
the semaphore as it is at that point. -/
inductive ReleaseResult where
  | released (s : Semaphore) (result : Nat)
  | panics (p : Panic) (s : Semaphore)
deriving DecidableEq, Repr

/-- `func (s *Semaphore) Release() (result uint)`: the named result is never
assigned, so the call returns the zero value. -/
def Semaphore.Release (s : Semaphore) : ReleaseResult :=
  if s.value = 0 then .panics .semReleaseWithoutAcquire s
  else .released { s with value := s.value - 1 } 0

/-- `m.limits[key]` with the comma-ok form. -/
def mapGet : List (String × Semaphore) → String → Option Semaphore
  | [], _ => none
  | (k, s) :: r, key => if k = key then some s else mapGet r key

/-- `m.limits[key] = l`, also the write through the pointer `l`. -/
def mapSet : List (String × Semaphore) → String → Semaphore → List (String × Semaphore)
  | [], key, l => [(key, l)]
  | (k, s) :: r, key, l => if k = key then (key, l) :: r else (k, s) :: mapSet r key l

/-- `delete(m.limits, key)`. -/
def mapDelete : List (String × Semaphore) → String → List (String × Semaphore)
  | [], _ => []
  | (k, s) :: r, key => if k = key then mapDelete r key else (k, s) :: mapDelete r key

/-- Fields of `type LimitMap struct` that carry data: the map and the
counter of the wait group. -/
structure LimitMap where
  limits : List (String × Semaphore)
  wg : Nat
deriving DecidableEq, Repr

/-- `func NewLimitMap() *LimitMap`. -/
def NewLimitMap : LimitMap := { limits := [], wg := 0 }

/-- How a call on the registry ends. -/
inductive Outcome where
  | done (m : LimitMap)
  | blocked (m : LimitMap)
  | panic (p : Panic) (m : LimitMap)
deriving DecidableEq, Repr

/-- First half of `LimitMap.Acquire`: the critical section under `m.lk`
(lookup, `NewSemaphore`, insertion, `l.refs++`) followed by `m.wg.Add(1)`. -/
def LimitMap.acquireStart (m : LimitMap) (key : String) (max : Nat) : Outcome :=
  match mapGet m.limits key with
  | some l =>
    .done { limits := mapSet m.limits key { l with refs := l.refs + 1 }, wg := m.wg + 1 }
  | none =>
    match NewSemaphore max with
    | .panic p => .panic p m
    | .ok l =>
      .done { limits := mapSet (mapSet m.limits key l) key { l with refs := l.refs + 1 },
              wg := m.wg + 1 }

/-- Second half of `LimitMap.Acquire`: `l.Acquire()` and the check `x > l.max`,
where `l`, the pointer the caller got in the first half, is the entry of `key`. -/
def LimitMap.acquireGrant (m : LimitMap) (key : String) : Outcome :=
  match mapGet m.limits key with
  | none => .blocked m
  | some l =>
    match l.Acquire with
    | .waits _ => .blocked m
    | .granted l' x =>
      if x > l'.max then .panic .semAcquireOverflow { m with limits := mapSet m.limits key l' }
      else .done { m with limits := mapSet m.limits key l' }

/-- `func (m *LimitMap) Acquire(key string, max uint)`. -/
def LimitMap.Acquire (m : LimitMap) (key : String) (max : Nat) : Outcome :=
  match m.acquireStart key max with
  | .done m' => m'.acquireGrant key
  | o => o

/-- `func (m *LimitMap) Release(key string)`. -/
def LimitMap.Release (m : LimitMap) (key : String) : Outcome :=
  match mapGet m.limits key with
  | none => .panic .keyNotInMap m
  | some l =>
    let l1 : Semaphore := { l with refs := l.refs - 1 }
    if l1.refs < 0 then .panic .refsNegative { m with limits := mapSet m.limits key l1 }
    else
      let detached : Bool := decide (l1.refs = 0)
      let limits1 := if detached then mapDelete m.limits key else mapSet m.limits key l1
      match l1.Release with
      | .panics p _ => .panic p { m with limits := limits1 }
      | .released l2 x =>
        let limits2 := if detached then limits1 else mapSet limits1 key l2
        if x > l2.max then .panic .semReleaseOverflow { m with limits := limits2 }
        else if m.wg = 0 then .panic .wgNegative { m with limits := limits2 }
        else .done { limits := limits2, wg := m.wg - 1 }

/-- Go's conversion and arithmetic on `int`: reduce to the signed 64-bit range. -/
def wrapInt (i : Int) : Int :=
  if i % (UINT_MOD : Int) < (UINT_MOD : Int) / 2 then i % (UINT_MOD : Int)
  else i % (UINT_MOD : Int) - (UINT_MOD : Int)

/-- `func (m *LimitMap) Size() (keys int, total int)`: `len(m.limits)` is the
number of entries, `total += int(l.value)` is arithmetic on `int`. -/
def LimitMap.Size (m : LimitMap) : Int × Int :=
  ((m.limits.length : Int),
   m.limits.foldl (fun total e => wrapInt (total + wrapInt e.2.value)) 0)

/-- The steps of an execution on the registry. -/
inductive Event where
  /-- a call `Acquire(key, max)` runs up to and including `m.wg.Add(1)` -/
  | start (key : String) (max : Nat)
  /-- a started `Acquire(key, _)` gets through `l.Acquire()` and returns -/
  | grant (key : String)
  /-- a call `Release(key)` runs to its end -/
  | release (key : String)
deriving DecidableEq, Repr

/-- The registry together with the calls of `LimitMap.Acquire` that are past
`m.wg.Add(1)` and have not returned from `l.Acquire()` yet, each listed by its key. -/
structure System where
  m : LimitMap
  waiting : List String
deriving DecidableEq, Repr

/-- The system around a registry on which no call is in progress. -/
def System.idle (m : LimitMap) : System := { m := m, waiting := [] }

/-- One step; `none` when the call panics or, for a grant, when no started call
for the key is left or the caller stays blocked. -/
def System.step (σ : System) : Event → Option System
  | .start key max =>
    match σ.m.acquireStart key max with
    | .done m' => some { m := m', waiting := key :: σ.waiting }
    | _ => none
  | .grant key =>
    if key ∈ σ.waiting then
      match σ.m.acquireGrant key with
      | .done m' => some { m := m', waiting := σ.waiting.erase key }
      | _ => none
    else none
  | .release key =>
    match σ.m.Release key with
    | .done m' => some { m := m', waiting := σ.waiting }
    | _ => none

/-- An execution, step by step. -/
def System.run (σ : System) : List Event → Option System
  | [] => some σ
  | e :: es =>
    match σ.step e with
    | none => none
    | some σ' => σ'.run es

/-- The state a call on the registry leaves behind. -/
def Outcome.state : Outcome → LimitMap
  | .done m => m
  | .blocked m => m
  | .panic _ m => m

/-- Whether a call returned. -/
def Outcome.isDone : Outcome → Bool
  | .done _ => true
  | _ => false

/-- Whether a call is left waiting. -/
def Outcome.isBlocked : Outcome → Bool
  | .blocked _ => true
  | _ => false

/-- Whether a call panicked. -/
def Outcome.isPanic : Outcome → Bool
  | .panic _ _ => true
  | _ => false

/-- Number of `Acquire(key, _)` calls started in an execution. -/
def started (key : String) : List Event → Nat
  | [] => 0
  | .start k _ :: es => (if k = key then 1 else 0) + started key es
  | _ :: es => started key es

/-- Number of `Acquire(key, _)` calls that were granted (returned) in an execution. -/
def granted (key : String) : List Event → Nat
  | [] => 0
  | .grant k :: es => (if k = key then 1 else 0) + granted key es
  | _ :: es => granted key es

/-- Number of `Release(key)` calls completed in an execution. -/
def released (key : String) : List Event → Nat
  | [] => 0
  | .release k :: es => (if k = key then 1 else 0) + released key es
  | _ :: es => released key es

/-- The steps of an execution on one semaphore. -/
inductive SemEvent where
  /-- a call of `Acquire` returns -/
  | acquire
  /-- a call of `Release` returns -/
  | release
deriving DecidableEq, Repr

/-- One step on a semaphore; `none` when `Acquire` waits or `Release` panics. -/
def Semaphore.step (s : Semaphore) : SemEvent → Option Semaphore
  | .acquire =>
    match s.Acquire with
    | .granted s' _ => some s'
    | .waits _ => none
  | .release =>
    match s.Release with
    | .released s' _ => some s'
    | .panics _ _ => none

/-- An execution on one semaphore, step by step. -/
def Semaphore.run (s : Semaphore) : List SemEvent → Option Semaphore
  | [] => some s
  | e :: es =>
    match s.step e with
    | none => none
    | some s' => s'.run es

/-- What ties the entry of `key` to the calls made for `key` so far, `s` of
`Acquire` started, `g` of them granted and `r` of `Release` completed: the key is
in the map exactly while `r < s`, `refs` is the number of calls in flight, and
`value` is the number of grants not yet released, as a `uint`, and is that number
itself when the capacity is not the largest `uint`. -/
def KeyInv (σ : System) (key : String) (s g r : Nat) : Prop :=
  r ≤ g ∧ g ≤ s ∧ σ.waiting.count key = s - g ∧
  (mapGet σ.m.limits key = none → s = r) ∧
  (∀ e, mapGet σ.m.limits key = some e →
    r < s ∧ e.refs = (s : Int) - (r : Int) ∧ e.value = (g - r) % UINT_MOD ∧ e.value ≤ e.max ∧
      (e.max + 1 < UINT_MOD → g - r ≤ e.max))

/-- The key an event is about. -/
def Event.key : Event → String
  | .start key _ => key
  | .grant key => key
  | .release key => key

/-- Sum of `refs` over the entries of the map. -/
def sumRefs : List (String × Semaphore) → Int
  | [] => 0
  | (_, s) :: r => s.refs + sumRefs r

/-- What a Go map guarantees and the registry keeps: every key occurs once, and
the counter of the wait group is the sum of `refs` over the entries. -/
def RegInv (m : LimitMap) : Prop :=
  (m.limits.map Prod.fst).Nodup ∧ (m.wg : Int) = sumRefs m.limits

/-- `Size` as a call on the registry: the registry it leaves behind and what it
returns. Between `m.lk.Lock()` and `m.lk.Unlock()` the body only reads. -/
def LimitMap.SizeCall (m : LimitMap) : LimitMap × (Int × Int) := (m, m.Size)

/-- Sum of `value` over the entries of the map. -/
def sumValues : List (String × Semaphore) → Nat
  | [] => 0
  | (_, s) :: r => s.value + sumValues r

/-- Number of `Acquire` calls started in an execution, over all keys. -/
def startedAll : List Event → Nat
  | [] => 0
  | .start _ _ :: es => 1 + startedAll es
  | _ :: es => startedAll es

/-- Number of `Acquire` calls granted in an execution, over all keys. -/
def grantedAll : List Event → Nat
  | [] => 0
  | .grant _ :: es => 1 + grantedAll es
  | _ :: es => grantedAll es

/-- Number of `Release` calls completed in an execution, over all keys. -/
def releasedAll : List Event → Nat
  | [] => 0
  | .release _ :: es => 1 + releasedAll es
  | _ :: es => releasedAll es

/-- The lock operations of the package: on the registry lock `m.lk`, and on the
lock `s.wait.L` of a semaphore, where `s.wait.Wait()` gives the lock up and
suspends the caller. -/
inductive LockOp where
  | lkLock
  | lkUnlock
  | semLock
  | semUnlock
  | semWait
deriving DecidableEq, Repr

/-- Lock operations of `Semaphore.Acquire`, up to where the call returns (the
deferred `Unlock` runs) or suspends in `Wait`. -/
def Semaphore.AcquireOps (s : Semaphore) : List LockOp :=
  match s.Acquire with
  | .granted _ _ => [.semLock, .semUnlock]
  | .waits _ => [.semLock, .semWait]

/-- Lock operations of `Semaphore.Release`: the deferred `Unlock` runs when the
call returns and when it panics. -/
def Semaphore.ReleaseOps (s : Semaphore) : List LockOp :=
  match s.Release with
  | .released _ _ => [.semLock, .semUnlock]
  | .panics _ _ => [.semLock, .semUnlock]

/-- Lock operations of `LimitMap.Acquire`, up to where the call returns, panics
or suspends; `m.lk.Unlock()` is not deferred. -/
def LimitMap.AcquireOps (m : LimitMap) (key : String) (max : Nat) : List LockOp :=
  match mapGet m.limits key with
  | some l => [.lkLock, .lkUnlock] ++ ({ l with refs := l.refs + 1 }).AcquireOps
  | none =>
    match NewSemaphore max with
    | .panic _ => [.lkLock]
    | .ok l => [.lkLock, .lkUnlock] ++ ({ l with refs := l.refs + 1 }).AcquireOps

/-- Lock operations of `LimitMap.Release`, up to where the call returns or
panics; `m.lk.Unlock()` is not deferred. -/
def LimitMap.ReleaseOps (m : LimitMap) (key : String) : List LockOp :=
  match mapGet m.limits key with
  | none => [.lkLock]
  | some l =>
    if l.refs - 1 < 0 then [.lkLock]
    else [.lkLock, .lkUnlock] ++ ({ l with refs := l.refs - 1 }).ReleaseOps

/-- Whether the registry lock is held after the operations, given whether it
was held before. -/
def lkHeldAfter : List LockOp → Bool → Bool
  | [], held => held
  | .lkLock :: r, _ => lkHeldAfter r true
  | .lkUnlock :: r, _ => lkHeldAfter r false
  | _ :: r, held => lkHeldAfter r held

/-- Whether some semaphore lock is taken while the registry lock is held. -/
def nested : List LockOp → Bool → Bool
  | [], _ => false
  | .lkLock :: r, _ => nested r true
  | .lkUnlock :: r, _ => nested r false
  | .semLock :: r, held => held || nested r held
  | _ :: r, held => nested r held

/-- First critical section of `LimitMap.Release`, under `m.lk`: lookup,
`l.refs--`, the check `l.refs < 0`, and the delete when `l.refs == 0`. -/
def LimitMap.releaseStart (m : LimitMap) (key : String) : Outcome :=
  match mapGet m.limits key with
  | none => .panic .keyNotInMap m
  | some l =>
    let l1 : Semaphore := { l with refs := l.refs - 1 }
    if l1.refs < 0 then .panic .refsNegative { m with limits := mapSet m.limits key l1 }
    else
      .done { m with limits := if l1.refs = 0 then mapDelete m.limits key
                               else mapSet m.limits key l1 }

/-- Rest of `LimitMap.Release`, run right after the first critical section on the
semaphore `l1` it looked up: `l.Release()`, the check `x > l.max`, `m.wg.Done()`.
The semaphore is no longer in the map when its `refs` is 0. -/
def LimitMap.releaseFinish (m1 : LimitMap) (key : String) (l1 : Semaphore) : Outcome :=
  match l1.Release with
  | .panics p _ => .panic p m1
  | .released l2 x =>
    let limits2 := if l1.refs = 0 then m1.limits else mapSet m1.limits key l2
    if x > l2.max then .panic .semReleaseOverflow { m1 with limits := limits2 }
    else if m1.wg = 0 then .panic .wgNegative { m1 with limits := limits2 }
    else .done { limits := limits2, wg := m1.wg - 1 }

/-- The steps of an execution in which every step is one critical section. -/
inductive FineEvent where
  /-- `Acquire(key, max)`: the critical section under `m.lk`, and `m.wg.Add(1)` -/
  | start (key : String) (max : Nat)
  /-- `Acquire(key, _)`: the critical section of `l.Acquire()` that grants -/
  | grant (key : String)
  /-- `Release(key)` by a holder of a grant: the critical section under `m.lk` -/
  | releaseStart (key : String)
  /-- `Release(key)`: `l.Release()` and `m.wg.Done()`, on a semaphore that is in the map -/
  | releaseFinish (key : String)
  /-- `Release(_)`: `l.Release()` and `m.wg.Done()`, on the `i`-th semaphore that was
  removed from the map -/
  | releaseFinishDetached (i : Nat)
deriving DecidableEq, Repr

/-- The registry and the calls in progress, each listed by its key: `waiting`
are the calls of `Acquire` that have not returned from `l.Acquire()`, `holding`
the callers that hold a grant, `releasing` the calls of `Release` between their
two critical sections whose semaphore is in the map, and `detached` the
semaphores removed from the map, each with its key and the number of calls of
`Release` that still have to run `l.Release()` on it. -/
structure Fine where
  m : LimitMap
  waiting : List String
  holding : List String
  releasing : List String
  detached : List (String × Semaphore × Nat)
deriving DecidableEq, Repr

/-- The system around a new registry. -/
def Fine.init : Fine :=
  { m := NewLimitMap, waiting := [], holding := [], releasing := [], detached := [] }

/-- One critical section; `none` when the call panics, when a grant finds the
caller blocked, or when no call is at that point. A semaphore that leaves the map
takes along the calls of `Release` that hold a pointer to it. -/
def Fine.step (σ : Fine) : FineEvent → Option Fine
  | .start key max =>
    match σ.m.acquireStart key max with
    | .done m' => some { σ with m := m', waiting := key :: σ.waiting }
    | _ => none
  | .grant key =>
    if key ∈ σ.waiting then
      match σ.m.acquireGrant key with
      | .done m' =>
        some { σ with m := m', waiting := σ.waiting.erase key, holding := key :: σ.holding }
      | _ => none
    else none
  | .releaseStart key =>
    if key ∈ σ.holding then
      match mapGet σ.m.limits key, σ.m.releaseStart key with
      | some l, .done m' =>
        if l.refs - 1 = 0 then
          some { σ with m := m', holding := σ.holding.erase key,
                        releasing := σ.releasing.filter (fun k => k ≠ key),
                        detached := σ.detached ++
                          [(key, { l with refs := l.refs - 1 }, σ.releasing.count key + 1)] }
        else
          some { σ with m := m', holding := σ.holding.erase key,
                        releasing := key :: σ.releasing }
      | _, _ => none
    else none
  | .releaseFinish key =>
    if key ∈ σ.releasing then
      match mapGet σ.m.limits key with
      | some l =>
        match σ.m.releaseFinish key l with
        | .done m' => some { σ with m := m', releasing := σ.releasing.erase key }
        | _ => none
      | none => none
    else none
  | .releaseFinishDetached i =>
    match σ.detached[i]? with
    | some (key, l, n + 1) =>
      match σ.m.releaseFinish key l with
      | .done m' =>
        some { σ with m := m',
                      detached := σ.detached.set i (key, { l with value := l.value - 1 }, n) }
      | _ => none
    | _ => none

/-- An execution, one critical section after the other. -/
def Fine.run (σ : Fine) : List FineEvent → Option Fine
  | [] => some σ
  | e :: es =>
    match σ.step e with
    | none => none
    | some σ' => σ'.run es

/-- What ties the entry of `key` to the calls in progress for `key`: `refs`
counts the waiting calls and the holders, `value` counts the holders and the
calls of `Release` between their two critical sections, as a `uint`. -/
def FineInv (σ : Fine) (key : String) : Prop :=
  (mapGet σ.m.limits key = none →
    σ.waiting.count key = 0 ∧ σ.holding.count key = 0 ∧ σ.releasing.count key = 0) ∧
  (∀ e, mapGet σ.m.limits key = some e →
    1 ≤ e.refs ∧
    e.refs = (σ.waiting.count key : Int) + (σ.holding.count key : Int) ∧
    e.value = (σ.holding.count key + σ.releasing.count key) % UINT_MOD)

/-- A semaphore that was removed from the map has `refs = 0`. -/
def DetachedInv (σ : Fine) : Prop :=
  ∀ x ∈ σ.detached, x.2.1.refs = 0

/-! ## The map -/

theorem mapGet_mapSet_self (m : List (String × Semaphore)) (key : String) (l : Semaphore) :
    mapGet (mapSet m key l) key = some l := by
  induction m with
  | nil => simp [mapSet, mapGet]
  | cons e r ih =>
    obtain ⟨k, s⟩ := e
    by_cases h : k = key
    · simp [mapSet, mapGet, h]
    · simp [mapSet, mapGet, h, ih]

theorem mapGet_mapSet_ne (m : List (String × Semaphore)) (key key' : String) (l : Semaphore)
    (h : key ≠ key') : mapGet (mapSet m key l) key' = mapGet m key' := by
  induction m with
  | nil => simp [mapSet, mapGet, h]
  | cons e r ih =>
    obtain ⟨k, s⟩ := e
    by_cases hk : k = key
    · subst hk
      simp [mapSet, mapGet, h]
    · simp only [mapSet, hk, if_false, mapGet, ih]

theorem mapGet_mapDelete_self (m : List (String × Semaphore)) (key : String) :
    mapGet (mapDelete m key) key = none := by
  induction m with
  | nil => simp [mapDelete, mapGet]
  | cons e r ih =>
    obtain ⟨k, s⟩ := e
    by_cases h : k = key
    · simp [mapDelete, h, ih]
    · simp [mapDelete, mapGet, h, ih]

theorem mapGet_mapDelete_ne (m : List (String × Semaphore)) (key key' : String)
    (h : key ≠ key') : mapGet (mapDelete m key) key' = mapGet m key' := by
  induction m with
  | nil => simp [mapDelete, mapGet]
  | cons e r ih =>
    obtain ⟨k, s⟩ := e
    by_cases hk : k = key
    · subst hk
      simp [mapDelete, mapGet, h, ih]
    · simp only [mapDelete, hk, if_false, mapGet, ih]

theorem mapGet_none_all (m : List (String × Semaphore))
    (h : ∀ key, mapGet m key = none) : m = [] := by
  cases m with
  | nil => rfl
  | cons e r =>
    obtain ⟨k, s⟩ := e
    have := h k
    simp [mapGet] at this

/-! ## The semaphore -/

theorem Semaphore.Acquire_of_lt (s : Semaphore) (hmax : s.max < UINT_MOD)
    (h : s.value < s.max) :
    s.Acquire = .granted { s with value := s.value + 1 } (s.value + 1) := by
  have h1 : (s.value + 1) % UINT_MOD = s.value + 1 := Nat.mod_eq_of_lt (by omega)
  simp only [Semaphore.Acquire, h1]
  rw [if_pos (by omega)]

theorem Semaphore.Acquire_of_eq (s : Semaphore) (hmax : s.max + 1 < UINT_MOD)
    (h : s.value = s.max) : s.Acquire = .waits s := by
  have h1 : (s.value + 1) % UINT_MOD = s.value + 1 := Nat.mod_eq_of_lt (by omega)
  simp only [Semaphore.Acquire, h1]
  rw [if_neg (by omega)]

theorem Semaphore.Acquire_granted_le (s s' : Semaphore) (x : Nat)
    (h : s.Acquire = .granted s' x) :
    s'.value ≤ s'.max ∧ s'.max = s.max ∧ s'.refs = s.refs ∧ x = s'.value ∧
      s'.value = (s.value + 1) % UINT_MOD := by
  unfold Semaphore.Acquire at h
  split at h
  · rename_i hle
    injection h with h1 h2
    subst h1
    exact ⟨hle, rfl, rfl, h2.symm, rfl⟩
  · exact absurd h (by simp)

theorem Semaphore.Release_released (s s' : Semaphore) (x : Nat)
    (h : s.Release = .released s' x) :
    0 < s.value ∧ s'.value = s.value - 1 ∧ s'.max = s.max ∧ s'.refs = s.refs ∧ x = 0 := by
  unfold Semaphore.Release at h
  split at h
  · exact absurd h (by simp)
  · rename_i hv
    injection h with h1 h2
    subst h1
    exact ⟨Nat.pos_of_ne_zero hv, rfl, rfl, rfl, h2.symm⟩

/-- C2, at the largest capacity: a semaphore with `max = 2^64 - 1` whose counter
has reached `max` does not wait. The test `uint(s.value)+1 <= s.max` wraps to
`0 <= max`, the call is granted, the counter wraps to 0 and 0 is returned. -/
theorem Semaphore.Acquire_full_largest_max_granted (refs : Int) :
    (Semaphore.mk refs (UINT_MOD - 1) (UINT_MOD - 1)).Acquire
      = .granted (Semaphore.mk refs (UINT_MOD - 1) 0) 0 := by
  simp [Semaphore.Acquire, UINT_MOD]

/-- C3: `Semaphore.Release` panics exactly when `value = 0`; a panicking call
leaves `value` and `max` as they were; with `value > 0` the call returns with
`value` one smaller and `max` unchanged. -/
theorem Semaphore.Release_panics_iff_value_zero (s : Semaphore) :
    ((∃ p s', s.Release = .panics p s') ↔ s.value = 0) ∧
    (∀ p s', s.Release = .panics p s' →
      p = .semReleaseWithoutAcquire ∧ s'.value = s.value ∧ s'.max = s.max) ∧
    (0 < s.value →
      ∃ s' x, s.Release = .released s' x ∧ s'.value + 1 = s.value ∧ s'.max = s.max) := by
  by_cases h : s.value = 0
  · refine ⟨⟨fun _ => h, fun _ => ⟨.semReleaseWithoutAcquire, s, by simp [Semaphore.Release, h]⟩⟩,
      ?_, fun hp => absurd h (by omega)⟩
    intro p s' hr
    simp [Semaphore.Release, h] at hr
    obtain ⟨hp, hs⟩ := hr
    subst hs
    exact ⟨hp.symm, rfl, rfl⟩
  · refine ⟨⟨fun ⟨p, s', hr⟩ => ?_, fun h0 => absurd h0 h⟩, ?_, fun _ => ?_⟩
    · simp [Semaphore.Release, h] at hr
    · intro p s' hr
      simp [Semaphore.Release, h] at hr
    · refine ⟨{ s with value := s.value - 1 }, 0, by simp [Semaphore.Release, h], ?_, rfl⟩
      show s.value - 1 + 1 = s.value
      omega

/-- Instance of C3 on a semaphore holding two of three slots and on an idle one. -/
theorem Semaphore.Release_panics_iff_value_zero_witness :
    (Semaphore.mk 2 3 2).Release = .released (Semaphore.mk 2 3 1) 0 ∧
    (∃ p s', (Semaphore.mk 0 3 0).Release = .panics p s') :=
  ⟨by decide, ((Semaphore.Release_panics_iff_value_zero (Semaphore.mk 0 3 0)).1).2 (by decide)⟩

/-! ## The registry, call by call -/

theorem LimitMap.acquireStart_present (m : LimitMap) (key : String) (max : Nat) (l : Semaphore)
    (h : mapGet m.limits key = some l) :
    m.acquireStart key max
      = .done { limits := mapSet m.limits key { l with refs := l.refs + 1 }, wg := m.wg + 1 } := by
  simp [LimitMap.acquireStart, h]

theorem LimitMap.acquireStart_absent (m : LimitMap) (key : String) (max : Nat)
    (h : mapGet m.limits key = none) (hmax : max ≠ 0) :
    m.acquireStart key max
      = .done { limits := mapSet (mapSet m.limits key (Semaphore.mk 0 max 0)) key
                  (Semaphore.mk 1 max 0),
                wg := m.wg + 1 } := by
  simp [LimitMap.acquireStart, h, NewSemaphore, hmax]

theorem LimitMap.acquireStart_absent_zero (m : LimitMap) (key : String)
    (h : mapGet m.limits key = none) :
    m.acquireStart key 0 = .panic .semMaxZero m := by
  simp [LimitMap.acquireStart, h, NewSemaphore]

/-- C4: `NewSemaphore(max)` panics exactly when `max = 0` and otherwise returns
the semaphore with that `max`, `value = 0` and `refs = 0`; `LimitMap.Acquire(key, 0)`
on a map without `key` panics with the same message and leaves the map, still
without `key`, as it was. -/
theorem NewSemaphore_zero_capacity_rejected (max : Nat) (m : LimitMap) (key : String)
    (h : mapGet m.limits key = none) :
    ((∃ p, NewSemaphore max = .panic p) ↔ max = 0) ∧
    (1 ≤ max → NewSemaphore max = .ok (Semaphore.mk 0 max 0)) ∧
    m.Acquire key 0 = .panic .semMaxZero m ∧
    mapGet (m.Acquire key 0).state.limits key = none := by
  refine ⟨?_, ?_, ?_, ?_⟩
  · by_cases h0 : max = 0 <;> simp [NewSemaphore, h0]
  · intro h1
    have h0 : max ≠ 0 := by omega
    simp [NewSemaphore, h0]
  · simp [LimitMap.Acquire, LimitMap.acquireStart_absent_zero m key h]
  · simp [LimitMap.Acquire, LimitMap.acquireStart_absent_zero m key h, Outcome.state, h]

/-- Instance of C4: capacity 0 on the empty registry, capacity 0 and 3 standalone. -/
theorem NewSemaphore_zero_capacity_rejected_witness :
    mapGet NewLimitMap.limits "a" = none ∧
    NewSemaphore 0 = .panic .semMaxZero ∧
    NewSemaphore 3 = .ok (Semaphore.mk 0 3 0) ∧
    NewLimitMap.Acquire "a" 0 = .panic .semMaxZero NewLimitMap :=
  ⟨by decide, by decide,
   (NewSemaphore_zero_capacity_rejected 3 NewLimitMap "a" (by decide)).2.1 (by decide),
   (NewSemaphore_zero_capacity_rejected 3 NewLimitMap "a" (by decide)).2.2.1⟩

/-! ## Executions, step by step -/

theorem System.step_start (σ σ' : System) (key : String) (max : Nat)
    (h : σ.step (.start key max) = some σ') :
    σ'.waiting = key :: σ.waiting ∧ σ'.m.wg = σ.m.wg + 1 ∧
    (∀ k, k ≠ key → mapGet σ'.m.limits k = mapGet σ.m.limits k) ∧
    ((∃ l, mapGet σ.m.limits key = some l ∧
        mapGet σ'.m.limits key = some { l with refs := l.refs + 1 }) ∨
     (mapGet σ.m.limits key = none ∧ max ≠ 0 ∧
        mapGet σ'.m.limits key = some (Semaphore.mk 1 max 0))) := by
  cases hg : mapGet σ.m.limits key with
  | some l =>
    simp only [System.step, LimitMap.acquireStart_present σ.m key max l hg] at h
    injection h with h
    subst h
    refine ⟨rfl, rfl, fun k hk => mapGet_mapSet_ne _ _ _ _ (Ne.symm hk), Or.inl ⟨l, rfl, ?_⟩⟩
    exact mapGet_mapSet_self _ _ _
  | none =>
    by_cases h0 : max = 0
    · subst h0
      simp [System.step, LimitMap.acquireStart_absent_zero σ.m key hg] at h
    · simp only [System.step, LimitMap.acquireStart_absent σ.m key max hg h0] at h
      injection h with h
      subst h
      refine ⟨rfl, rfl, fun k hk => ?_, Or.inr ⟨rfl, h0, mapGet_mapSet_self _ _ _⟩⟩
      show mapGet (mapSet (mapSet σ.m.limits key _) key _) k = _
      rw [mapGet_mapSet_ne _ _ _ _ (Ne.symm hk), mapGet_mapSet_ne _ _ _ _ (Ne.symm hk)]

theorem LimitMap.acquireGrant_done (m m' : LimitMap) (key : String)
    (h : m.acquireGrant key = .done m') :
    ∃ l, mapGet m.limits key = some l ∧ (l.value + 1) % UINT_MOD ≤ l.max ∧
      m' = { m with limits := mapSet m.limits key { l with value := (l.value + 1) % UINT_MOD } } := by
  unfold LimitMap.acquireGrant at h
  cases hg : mapGet m.limits key with
  | none => simp [hg] at h
  | some l =>
    simp only [hg] at h
    by_cases ht : (l.value + 1) % UINT_MOD ≤ l.max
    · simp only [Semaphore.Acquire, ht, if_true] at h
      have hx : ¬ ((l.value + 1) % UINT_MOD > l.max) := by omega
      simp only [hx, if_false] at h
      injection h with h
      exact ⟨l, rfl, ht, h.symm⟩
    · simp [Semaphore.Acquire, ht] at h

theorem System.step_grant (σ σ' : System) (key : String)
    (h : σ.step (.grant key) = some σ') :
    key ∈ σ.waiting ∧ σ'.waiting = σ.waiting.erase key ∧ σ'.m.wg = σ.m.wg ∧
    (∀ k, k ≠ key → mapGet σ'.m.limits k = mapGet σ.m.limits k) ∧
    ∃ l, mapGet σ.m.limits key = some l ∧ (l.value + 1) % UINT_MOD ≤ l.max ∧
      mapGet σ'.m.limits key = some { l with value := (l.value + 1) % UINT_MOD } := by
  unfold System.step at h
  by_cases hw : key ∈ σ.waiting
  · simp only [hw, if_true] at h
    cases ho : σ.m.acquireGrant key with
    | blocked m' => simp [ho] at h
    | panic p m' => simp [ho] at h
    | done m' =>
      simp only [ho] at h
      injection h with h
      subst h
      obtain ⟨l, hl, ht, hm⟩ := LimitMap.acquireGrant_done σ.m m' key ho
      subst hm
      exact ⟨hw, rfl, rfl, fun k hk => mapGet_mapSet_ne _ _ _ _ (Ne.symm hk),
        l, hl, ht, mapGet_mapSet_self _ _ _⟩
  · simp [hw] at h

theorem LimitMap.Release_done (m m' : LimitMap) (key : String)
    (h : m.Release key = .done m') :
    ∃ l, mapGet m.limits key = some l ∧ 1 ≤ l.refs ∧ 0 < l.value ∧ 0 < m.wg ∧
      m'.wg = m.wg - 1 ∧
      m'.limits = (if l.refs = 1 then mapDelete m.limits key
        else mapSet (mapSet m.limits key { l with refs := l.refs - 1 }) key
          { l with refs := l.refs - 1, value := l.value - 1 }) := by
  unfold LimitMap.Release at h
  cases hg : mapGet m.limits key with
  | none => simp [hg] at h
  | some l =>
    simp only [hg] at h
    by_cases hneg : l.refs - 1 < 0
    · simp [hneg] at h
    · simp only [hneg, if_false] at h
      by_cases hv : l.value = 0
      · simp [Semaphore.Release, hv] at h
      · simp only [Semaphore.Release, hv, if_false] at h
        by_cases hwg : m.wg = 0
        · simp [hwg] at h
        · simp only [hwg, if_false, gt_iff_lt, Nat.not_lt_zero] at h
          injection h with h
          subst h
          refine ⟨l, rfl, by omega, Nat.pos_of_ne_zero hv, Nat.pos_of_ne_zero hwg, rfl, ?_⟩
          by_cases h1 : l.refs = 1
          · have : l.refs - 1 = 0 := by omega
            simp [h1]
          · have : ¬ (l.refs - 1 = 0) := by omega
            simp [h1, this]

theorem System.step_release (σ σ' : System) (key : String)
    (h : σ.step (.release key) = some σ') :
    σ'.waiting = σ.waiting ∧ σ'.m.wg + 1 = σ.m.wg ∧
    (∀ k, k ≠ key → mapGet σ'.m.limits k = mapGet σ.m.limits k) ∧
    ∃ l, mapGet σ.m.limits key = some l ∧ 1 ≤ l.refs ∧ 0 < l.value ∧
      ((l.refs = 1 ∧ mapGet σ'.m.limits key = none) ∨
       (2 ≤ l.refs ∧ mapGet σ'.m.limits key
          = some { l with refs := l.refs - 1, value := l.value - 1 })) := by
  unfold System.step at h
  cases ho : σ.m.Release key with
  | blocked m' => simp [ho] at h
  | panic p m' => simp [ho] at h
  | done m' =>
    simp only [ho] at h
    injection h with h
    subst h
    obtain ⟨l, hl, hr, hv, hwg, hwg', hlim⟩ := LimitMap.Release_done σ.m m' key ho
    refine ⟨rfl, by show m'.wg + 1 = σ.m.wg; omega, fun k hk => ?_, l, hl, hr, hv, ?_⟩
    · show mapGet m'.limits k = _
      rw [hlim]
      split
      · exact mapGet_mapDelete_ne _ _ _ (Ne.symm hk)
      · rw [mapGet_mapSet_ne _ _ _ _ (Ne.symm hk), mapGet_mapSet_ne _ _ _ _ (Ne.symm hk)]
    · show (l.refs = 1 ∧ mapGet m'.limits key = none) ∨ (2 ≤ l.refs ∧ mapGet m'.limits key = _)
      rw [hlim]
      by_cases h1 : l.refs = 1
      · left
        simp [h1, mapGet_mapDelete_self]
      · right
        refine ⟨by omega, ?_⟩
        simp [h1, mapGet_mapSet_self]

theorem System.run_append (σ : System) (tr tr' : List Event) :
    σ.run (tr ++ tr') = (σ.run tr).bind (fun σ' => σ'.run tr') := by
  induction tr generalizing σ with
  | nil => rfl
  | cons e es ih =>
    simp only [List.cons_append, System.run]
    cases σ.step e with
    | none => rfl
    | some σ1 => exact ih σ1

theorem System.run_snoc (σ σ' : System) (tr : List Event) (e : Event)
    (h : σ.run (tr ++ [e]) = some σ') :
    ∃ σ1, σ.run tr = some σ1 ∧ σ1.step e = some σ' := by
  rw [System.run_append] at h
  cases h1 : σ.run tr with
  | none => simp [h1] at h
  | some σ1 =>
    refine ⟨σ1, rfl, ?_⟩
    simp only [h1, Option.bind, System.run] at h
    cases h2 : σ1.step e with
    | none => simp [h2] at h
    | some σ2 =>
      simp only [h2] at h
      exact h

theorem started_append (key : String) (tr tr' : List Event) :
    started key (tr ++ tr') = started key tr + started key tr' := by
  induction tr with
  | nil => simp [started]
  | cons e es ih => cases e <;> simp [started, ih, Nat.add_assoc]

theorem granted_append (key : String) (tr tr' : List Event) :
    granted key (tr ++ tr') = granted key tr + granted key tr' := by
  induction tr with
  | nil => simp [granted]
  | cons e es ih => cases e <;> simp [granted, ih, Nat.add_assoc]

theorem released_append (key : String) (tr tr' : List Event) :
    released key (tr ++ tr') = released key tr + released key tr' := by
  induction tr with
  | nil => simp [released]
  | cons e es ih => cases e <;> simp [released, ih, Nat.add_assoc]

/-! ## The entry of a key and the calls made for it -/

theorem uint_succ_mod (a : Nat) : (a % UINT_MOD + 1) % UINT_MOD = (a + 1) % UINT_MOD := by
  unfold UINT_MOD
  omega

theorem uint_pred_mod (a : Nat) (h : 0 < a % UINT_MOD) :
    a % UINT_MOD - 1 = (a - 1) % UINT_MOD := by
  unfold UINT_MOD at *
  omega

theorem KeyInv.step_other (σ σ' : System) (key : String) (s g r : Nat)
    (hinv : KeyInv σ key s g r) (hw : σ'.waiting.count key = σ.waiting.count key)
    (hm : mapGet σ'.m.limits key = mapGet σ.m.limits key) : KeyInv σ' key s g r := by
  obtain ⟨h1, h2, h3, h4, h5⟩ := hinv
  exact ⟨h1, h2, by rw [hw]; exact h3, by rw [hm]; exact h4, by rw [hm]; exact h5⟩

theorem KeyInv.step (σ σ' : System) (key : String) (s g r : Nat) (e : Event)
    (hinv : KeyInv σ key s g r) (hstep : σ.step e = some σ') :
    KeyInv σ' key (s + started key [e]) (g + granted key [e]) (r + released key [e]) := by
  cases e with
  | start k c =>
    obtain ⟨hw, _, hother, hkey⟩ := System.step_start σ σ' k c hstep
    by_cases hk : k = key
    · subst hk
      obtain ⟨h1, h2, h3, h4, h5⟩ := hinv
      have hcount : σ'.waiting.count k = s + 1 - g := by
        rw [hw, List.count_cons_self, h3]
        omega
      simp only [started, granted, released, if_true, Nat.add_zero]
      refine ⟨h1, by omega, hcount, ?_, ?_⟩
      · intro hnone
        rcases hkey with ⟨l, _, hl'⟩ | ⟨_, _, hl'⟩ <;> simp [hl'] at hnone
      · intro e' he'
        rcases hkey with ⟨l, hl, hl'⟩ | ⟨hnone, _, hl'⟩
        · obtain ⟨a1, a2, a3, a4⟩ := h5 l hl
          rw [hl'] at he'
          injection he' with he'
          subst he'
          refine ⟨by omega, ?_, a3, a4⟩
          show l.refs + 1 = ((s + 1 : Nat) : Int) - (r : Int)
          push_cast
          omega
        · have hsr := h4 hnone
          rw [hl'] at he'
          injection he' with he'
          subst he'
          have hgr : g - r = 0 := by omega
          refine ⟨by omega, ?_, ?_, Nat.zero_le _, fun _ => by omega⟩
          · show (1 : Int) = ((s + 1 : Nat) : Int) - (r : Int)
            push_cast
            omega
          · show 0 = (g - r) % UINT_MOD
            rw [hgr]
            rfl
    · have hc : σ'.waiting.count key = σ.waiting.count key := by
        rw [hw, List.count_cons_of_ne (Ne.symm hk)]
      simp only [started, granted, released, hk, if_false, Nat.add_zero]
      exact KeyInv.step_other σ σ' key s g r hinv hc (hother key (Ne.symm hk))
  | grant k =>
    obtain ⟨hmem, hw, _, hother, l, hl, ht, hl'⟩ := System.step_grant σ σ' k hstep
    by_cases hk : k = key
    · subst hk
      obtain ⟨h1, h2, h3, h4, h5⟩ := hinv
      have hpos : 0 < σ.waiting.count k := List.count_pos_iff.mpr hmem
      obtain ⟨a1, a2, a3, a4⟩ := h5 l hl
      simp only [started, granted, released, if_true, Nat.add_zero]
      refine ⟨by omega, by omega, ?_, ?_, ?_⟩
      · rw [hw, List.count_erase_self, h3]
        omega
      · intro hnone
        simp [hl'] at hnone
      · intro e' he'
        rw [hl'] at he'
        injection he' with he'
        subst he'
        refine ⟨a1, a2, ?_, ht, ?_⟩
        · show (l.value + 1) % UINT_MOD = (g + 1 - r) % UINT_MOD
          rw [a3, uint_succ_mod]
          congr 1
          omega
        · intro hlt
          have hb := a4.2 hlt
          have hlt' : l.max + 1 < UINT_MOD := hlt
          show g + 1 - r ≤ l.max
          unfold UINT_MOD at *
          omega
    · have hc : σ'.waiting.count key = σ.waiting.count key := by
        rw [hw, List.count_erase_of_ne (Ne.symm hk)]
      simp only [started, granted, released, hk, if_false, Nat.add_zero]
      exact KeyInv.step_other σ σ' key s g r hinv hc (hother key (Ne.symm hk))
  | release k =>
    obtain ⟨hw, _, hother, l, hl, hr, hv, hcase⟩ := System.step_release σ σ' k hstep
    by_cases hk : k = key
    · subst hk
      obtain ⟨h1, h2, h3, h4, h5⟩ := hinv
      obtain ⟨a1, a2, a3, a4⟩ := h5 l hl
      have hgr : 0 < (g - r) % UINT_MOD := by rw [← a3]; exact hv
      have hgr' : r < g := by
        by_contra hcon
        have : g - r = 0 := by omega
        rw [this] at hgr
        simp at hgr
      simp only [started, granted, released, if_true, Nat.add_zero]
      refine ⟨by omega, h2, by rw [hw]; exact h3, ?_, ?_⟩
      · intro hnone
        rcases hcase with ⟨hr1, _⟩ | ⟨hr2, hl'⟩
        · rw [hr1] at a2
          omega
        · simp [hl'] at hnone
      · intro e' he'
        rcases hcase with ⟨_, hl'⟩ | ⟨hr2, hl'⟩
        · simp [hl'] at he'
        · rw [hl'] at he'
          injection he' with he'
          subst he'
          refine ⟨by omega, ?_, ?_, ?_⟩
          · show l.refs - 1 = (s : Int) - ((r + 1 : Nat) : Int)
            push_cast
            omega
          · show l.value - 1 = (g - (r + 1)) % UINT_MOD
            rw [a3, uint_pred_mod _ hgr]
            congr 1
          · refine ⟨?_, fun hlt => ?_⟩
            · show l.value - 1 ≤ l.max
              omega
            · have hb := a4.2 hlt
              show g - (r + 1) ≤ l.max
              omega
    · have hc : σ'.waiting.count key = σ.waiting.count key := by rw [hw]
      simp only [started, granted, released, hk, if_false, Nat.add_zero]
      exact KeyInv.step_other σ σ' key s g r hinv hc (hother key (Ne.symm hk))

theorem KeyInv.run (σ0 : System) (key : String)
    (h0 : mapGet σ0.m.limits key = none) (hw0 : key ∉ σ0.waiting)
    (tr : List Event) (σ : System) (hrun : σ0.run tr = some σ) :
    KeyInv σ key (started key tr) (granted key tr) (released key tr) := by
  induction tr using List.reverseRecOn generalizing σ with
  | nil =>
    simp only [System.run] at hrun
    injection hrun with hrun
    subst hrun
    refine ⟨Nat.le_refl _, Nat.le_refl _, ?_, fun _ => rfl, ?_⟩
    · simp [started, granted, List.count_eq_zero_of_not_mem hw0]
    · intro e he
      rw [h0] at he
      exact absurd he (by simp)
  | append_singleton tr e ih =>
    obtain ⟨σ1, hrun1, hstep⟩ := System.run_snoc σ0 σ tr e hrun
    rw [started_append, granted_append, released_append]
    exact KeyInv.step σ1 σ key _ _ _ e (ih σ1 hrun1) hstep

/-! ## The largest capacity on one semaphore -/

/-- On a semaphore with `max = 2^64 - 1` every call of `Acquire` is granted: `n`
calls in a row take the counter from `j` to `j + n` as a `uint`. -/
theorem Semaphore.run_acquires_largest_max (n j : Nat) :
    (Semaphore.mk 0 (UINT_MOD - 1) (j % UINT_MOD)).run (List.replicate n .acquire)
      = some (Semaphore.mk 0 (UINT_MOD - 1) ((j + n) % UINT_MOD)) := by
  induction n generalizing j with
  | zero => rfl
  | succ n ih =>
    have hle : (j + 1) % UINT_MOD ≤ UINT_MOD - 1 := by
      unfold UINT_MOD
      omega
    simp only [List.replicate, Semaphore.run, Semaphore.step, Semaphore.Acquire,
      uint_succ_mod, hle, if_true]
    rw [ih (j + 1)]
    congr 3
    omega

/-! ## `LimitMap.Acquire` as one call -/

theorem LimitMap.Acquire_present_granted (m : LimitMap) (key : String) (c : Nat) (l : Semaphore)
    (h : mapGet m.limits key = some l) (ht : (l.value + 1) % UINT_MOD ≤ l.max) :
    m.Acquire key c
      = .done { limits := mapSet (mapSet m.limits key { l with refs := l.refs + 1 }) key
                  { l with refs := l.refs + 1, value := (l.value + 1) % UINT_MOD },
                wg := m.wg + 1 } := by
  have hx : ¬ (l.max < (l.value + 1) % UINT_MOD) := by omega
  simp [LimitMap.Acquire, LimitMap.acquireStart_present m key c l h, LimitMap.acquireGrant,
    mapGet_mapSet_self, Semaphore.Acquire, ht, hx]

theorem LimitMap.Acquire_present_blocked (m : LimitMap) (key : String) (c : Nat) (l : Semaphore)
    (h : mapGet m.limits key = some l) (ht : ¬ (l.value + 1) % UINT_MOD ≤ l.max) :
    m.Acquire key c
      = .blocked { limits := mapSet m.limits key { l with refs := l.refs + 1 },
                   wg := m.wg + 1 } := by
  simp [LimitMap.Acquire, LimitMap.acquireStart_present m key c l h, LimitMap.acquireGrant,
    mapGet_mapSet_self, Semaphore.Acquire, ht]

theorem LimitMap.Acquire_absent (m : LimitMap) (key : String) (c : Nat)
    (h : mapGet m.limits key = none) (hc : 1 ≤ c) :
    m.Acquire key c
      = .done { limits := mapSet (mapSet (mapSet m.limits key (Semaphore.mk 0 c 0)) key
                  (Semaphore.mk 1 c 0)) key (Semaphore.mk 1 c 1),
                wg := m.wg + 1 } := by
  have h0 : c ≠ 0 := by omega
  have h1 : (0 + 1) % UINT_MOD = 1 := by decide
  have hx : ¬ (c < 1) := by omega
  simp [LimitMap.Acquire, LimitMap.acquireStart_absent m key c h h0, LimitMap.acquireGrant,
    mapGet_mapSet_self, Semaphore.Acquire, h1, hc, hx]

/-! ## The capacity bound -/

theorem Semaphore.step_value_le_max (s s' : Semaphore) (e : SemEvent)
    (h : s.value ≤ s.max) (hstep : s.step e = some s') :
    s'.value ≤ s'.max ∧ s'.max = s.max := by
  cases e with
  | acquire =>
    unfold Semaphore.step at hstep
    cases hr : s.Acquire with
    | waits s1 => simp [hr] at hstep
    | granted s1 x =>
      simp only [hr] at hstep
      injection hstep with hstep
      subst hstep
      obtain ⟨a1, a2, _⟩ := Semaphore.Acquire_granted_le s s1 x hr
      exact ⟨a1, a2⟩
  | release =>
    unfold Semaphore.step at hstep
    cases hr : s.Release with
    | panics p s1 => simp [hr] at hstep
    | released s1 x =>
      simp only [hr] at hstep
      injection hstep with hstep
      subst hstep
      obtain ⟨_, a2, a3, _⟩ := Semaphore.Release_released s s1 x hr
      exact ⟨by omega, a3⟩

/-- On one semaphore: in every state reached from
`NewSemaphore(max)` by granted `Acquire` calls and non-panicking `Release`
calls, `value ≤ max`, and `max` is the capacity given at construction. -/
theorem Semaphore.run_value_le_max (max : Nat) (s0 s : Semaphore) (tr : List SemEvent)
    (h0 : NewSemaphore max = .ok s0) (hrun : s0.run tr = some s) :
    s.value ≤ s.max ∧ s.max = max := by
  have hinit : s0.value ≤ s0.max ∧ s0.max = max := by
    unfold NewSemaphore at h0
    split at h0
    · exact absurd h0 (by simp)
    · injection h0 with h0
      subst h0
      exact ⟨Nat.zero_le _, rfl⟩
  clear h0
  induction tr generalizing s0 with
  | nil =>
    simp only [Semaphore.run] at hrun
    injection hrun with hrun
    subst hrun
    exact hinit
  | cons e es ih =>
    simp only [Semaphore.run] at hrun
    cases hs : s0.step e with
    | none => simp [hs] at hrun
    | some s1 =>
      simp only [hs] at hrun
      obtain ⟨b1, b2⟩ := Semaphore.step_value_le_max s0 s1 e hinit.1 hs
      exact ih s1 hrun ⟨b1, b2.trans hinit.2⟩

/-- On the registry: in every state reached from
`NewLimitMap()`, every semaphore in the map has `value ≤ max`; and when `max` is
not the largest `uint`, the number of `Acquire` calls for the key that hold a
grant is at most `max`. -/
theorem System.run_entry_value_le_max (tr : List Event) (σ : System) (key : String) (e : Semaphore)
    (hrun : (System.idle NewLimitMap).run tr = some σ)
    (he : mapGet σ.m.limits key = some e) :
    e.value ≤ e.max ∧
      (e.max + 1 < UINT_MOD → granted key tr - released key tr ≤ e.max) := by
  have hinv := KeyInv.run (System.idle NewLimitMap) key rfl (by simp [System.idle]) tr σ hrun
  obtain ⟨_, _, _, _, h5⟩ := hinv
  obtain ⟨_, _, _, a4, a5⟩ := h5 e he
  exact ⟨a4, a5⟩

/-! ## The capacity argument on a key that is in the map -/

/-- On a key that is in the map, in any state: the capacity argument plays no
part, the call does not panic, `max` stays, and for a `uint` capacity below the
largest one the call is granted when `value < max` and blocked when
`value = max`. -/
theorem LimitMap.Acquire_present_ignores_capacity (m : LimitMap) (key : String) (l : Semaphore)
    (c c' : Nat) (h : mapGet m.limits key = some l) :
    m.Acquire key c = m.Acquire key c' ∧ (m.Acquire key c).isPanic = false ∧
    (∃ l', mapGet (m.Acquire key c).state.limits key = some l' ∧ l'.max = l.max) ∧
    (l.max < UINT_MOD → l.value < l.max → (m.Acquire key c).isDone = true) ∧
    (l.max + 1 < UINT_MOD → l.value = l.max → (m.Acquire key c).isBlocked = true) := by
  by_cases ht : (l.value + 1) % UINT_MOD ≤ l.max
  · rw [LimitMap.Acquire_present_granted m key c l h ht,
      LimitMap.Acquire_present_granted m key c' l h ht]
    refine ⟨rfl, rfl, ⟨_, mapGet_mapSet_self _ _ _, rfl⟩, fun _ _ => rfl, fun h1 h2 => ?_⟩
    exfalso
    unfold UINT_MOD at *
    omega
  · rw [LimitMap.Acquire_present_blocked m key c l h ht,
      LimitMap.Acquire_present_blocked m key c' l h ht]
    refine ⟨rfl, rfl, ⟨_, mapGet_mapSet_self _ _ _, rfl⟩, fun h1 h2 => ?_, fun _ _ => rfl⟩
    exfalso
    unfold UINT_MOD at *
    omega

/-! ## C7: balanced use -/

theorem started_eq_zero_of_key_ne (key : String) (tr : List Event)
    (h : ∀ e ∈ tr, e.key ≠ key) : started key tr = 0 ∧ released key tr = 0 := by
  induction tr with
  | nil => exact ⟨rfl, rfl⟩
  | cons e es ih =>
    have hes := ih (fun e' he' => h e' (List.mem_cons_of_mem _ he'))
    have he := h e (List.mem_cons_self _ _)
    cases e with
    | start k c =>
      have hk : k ≠ key := he
      simp [started, released, hk, hes.1, hes.2]
    | grant k => simp [started, released, hes.1, hes.2]
    | release k =>
      have hk : k ≠ key := he
      simp [started, released, hk, hes.1, hes.2]

theorem System.run_absent_of_balanced (σ0 : System) (key : String) (tr : List Event)
    (σ : System) (h0 : mapGet σ0.m.limits key = none) (hw0 : key ∉ σ0.waiting)
    (hrun : σ0.run tr = some σ) (hbal : started key tr = released key tr) :
    mapGet σ.m.limits key = none := by
  obtain ⟨_, _, _, _, h5⟩ := KeyInv.run σ0 key h0 hw0 tr σ hrun
  cases hg : mapGet σ.m.limits key with
  | none => rfl
  | some e =>
    have := (h5 e hg).1
    omega

/-- C7: from a registry without `key` and without a call in progress for `key`,
every execution in which as many `Release(key)` calls completed as
`Acquire(key, _)` calls were started (each release after a grant, or the
execution would not run) ends without `key` in the map; from `NewLimitMap()`,
when the execution is about `key` only, it ends with `Size() = (0, 0)`. -/
theorem balanced_use_cleans_up (σ0 : System) (key : String) (tr : List Event) (σ : System)
    (h0 : mapGet σ0.m.limits key = none) (hw0 : key ∉ σ0.waiting)
    (hrun : σ0.run tr = some σ) (hbal : started key tr = released key tr) :
    mapGet σ.m.limits key = none ∧
    (σ0 = System.idle NewLimitMap → (∀ e ∈ tr, e.key = key) → σ.m.Size = (0, 0)) := by
  refine ⟨System.run_absent_of_balanced σ0 key tr σ h0 hw0 hrun hbal, fun hm hkeys => ?_⟩
  subst hm
  have hall : ∀ k, mapGet σ.m.limits k = none := by
    intro k
    by_cases hk : k = key
    · subst hk
      exact System.run_absent_of_balanced _ k tr σ h0 hw0 hrun hbal
    · have hz := started_eq_zero_of_key_ne k tr (fun e he => by rw [hkeys e he]; exact Ne.symm hk)
      exact System.run_absent_of_balanced (System.idle NewLimitMap) k tr σ rfl
        (by simp [System.idle]) hrun (by rw [hz.1, hz.2])
  have hnil := mapGet_none_all σ.m.limits hall
  simp only [LimitMap.Size, hnil]
  decide

/-- Instance of C7, the scenario of the specification: capacity 2 for "a", three
acquirers; the third is not granted while two hold a grant, it is granted after
the first release, and after three releases the registry is empty. -/
theorem balanced_use_cleans_up_witness :
    (System.idle NewLimitMap).run
      [.start "a" 2, .start "a" 2, .start "a" 2, .grant "a", .grant "a"]
      = some (System.mk (LimitMap.mk [("a", Semaphore.mk 3 2 2)] 3) ["a"]) ∧
    (LimitMap.mk [("a", Semaphore.mk 3 2 2)] 3).acquireGrant "a"
      = .blocked (LimitMap.mk [("a", Semaphore.mk 3 2 2)] 3) ∧
    (System.idle NewLimitMap).run
      [.start "a" 2, .start "a" 2, .start "a" 2, .grant "a", .grant "a", .release "a",
       .grant "a", .release "a", .release "a"] = some (System.idle NewLimitMap) ∧
    mapGet NewLimitMap.limits "a" = none ∧ NewLimitMap.Size = (0, 0) :=
  ⟨by decide, by decide, by decide,
   (balanced_use_cleans_up (System.idle NewLimitMap) "a"
      [.start "a" 2, .start "a" 2, .start "a" 2, .grant "a", .grant "a", .release "a",
       .grant "a", .release "a", .release "a"] (System.idle NewLimitMap)
      (by decide) (by decide) (by decide) (by decide)).1,
   (balanced_use_cleans_up (System.idle NewLimitMap) "a"
      [.start "a" 2, .start "a" 2, .start "a" 2, .grant "a", .grant "a", .release "a",
       .grant "a", .release "a", .release "a"] (System.idle NewLimitMap)
      (by decide) (by decide) (by decide) (by decide)).2 rfl (by decide)⟩

/-! ## C8: the lifetime of an entry -/

/-- C8: in every state reached from `NewLimitMap()` by starts and grants of
`Acquire` and by completed `Release` calls, a key is in the map exactly when more
`Acquire` calls were started for it than `Release` calls completed; every entry
has `refs ≥ 1`, equal to that difference; the calls still waiting for the key
are the started ones that were not granted, and while there is one the key is in
the map. No `Release` completes without a grant to give back. -/
theorem entry_present_iff_calls_in_flight (tr : List Event) (σ : System) (key : String)
    (hrun : (System.idle NewLimitMap).run tr = some σ) :
    (mapGet σ.m.limits key ≠ none ↔ released key tr < started key tr) ∧
    (∀ e, mapGet σ.m.limits key = some e →
      1 ≤ e.refs ∧ e.refs = (started key tr : Int) - (released key tr : Int)) ∧
    σ.waiting.count key = started key tr - granted key tr ∧
    (key ∈ σ.waiting → mapGet σ.m.limits key ≠ none) ∧
    released key tr ≤ granted key tr ∧ granted key tr ≤ started key tr := by
  obtain ⟨h1, h2, h3, h4, h5⟩ :=
    KeyInv.run (System.idle NewLimitMap) key rfl (by simp [System.idle]) tr σ hrun
  refine ⟨⟨fun hne => ?_, fun hlt hnone => ?_⟩, fun e he => ?_, h3, fun hmem hnone => ?_, h1, h2⟩
  · cases hg : mapGet σ.m.limits key with
    | none => exact absurd hg hne
    | some e => exact (h5 e hg).1
  · have := h4 hnone
    omega
  · obtain ⟨a1, a2, _⟩ := h5 e he
    refine ⟨?_, a2⟩
    rw [a2]
    omega
  · have hpos : 0 < σ.waiting.count key := List.count_pos_iff.mpr hmem
    have := h4 hnone
    omega

/-- Instance of C8: two calls started for "a" at capacity 1, one granted, the
other one waiting; the key is in the map with `refs = 2`. -/
theorem entry_present_iff_calls_in_flight_witness :
    (System.idle NewLimitMap).run [.start "a" 1, .grant "a", .start "a" 1]
      = some (System.mk (LimitMap.mk [("a", Semaphore.mk 2 1 1)] 2) ["a"]) ∧
    (mapGet (LimitMap.mk [("a", Semaphore.mk 2 1 1)] 2).limits "a" ≠ none ↔
      released "a" [.start "a" 1, .grant "a", .start "a" 1]
        < started "a" [.start "a" 1, .grant "a", .start "a" 1]) :=
  ⟨by decide,
   (entry_present_iff_calls_in_flight [.start "a" 1, .grant "a", .start "a" 1]
      (System.mk (LimitMap.mk [("a", Semaphore.mk 2 1 1)] 2) ["a"]) "a" (by decide)).1⟩

/-! ## C9: keys are independent -/

theorem LimitMap.Acquire_frame (m : LimitMap) (k k' : String) (c : Nat) (hne : k ≠ k') :
    mapGet (m.Acquire k c).state.limits k' = mapGet m.limits k' := by
  cases hg : mapGet m.limits k with
  | some l =>
    by_cases ht : (l.value + 1) % UINT_MOD ≤ l.max
    · rw [LimitMap.Acquire_present_granted m k c l hg ht]
      simp only [Outcome.state]
      rw [mapGet_mapSet_ne _ _ _ _ hne, mapGet_mapSet_ne _ _ _ _ hne]
    · rw [LimitMap.Acquire_present_blocked m k c l hg ht]
      simp only [Outcome.state]
      rw [mapGet_mapSet_ne _ _ _ _ hne]
  | none =>
    by_cases hc : c = 0
    · subst hc
      simp [LimitMap.Acquire, LimitMap.acquireStart_absent_zero m k hg, Outcome.state]
    · rw [LimitMap.Acquire_absent m k c hg (by omega)]
      simp only [Outcome.state]
      rw [mapGet_mapSet_ne _ _ _ _ hne, mapGet_mapSet_ne _ _ _ _ hne,
        mapGet_mapSet_ne _ _ _ _ hne]

theorem LimitMap.Release_frame (m : LimitMap) (k k' : String) (hne : k ≠ k') :
    mapGet (m.Release k).state.limits k' = mapGet m.limits k' := by
  unfold LimitMap.Release
  cases hg : mapGet m.limits k with
  | none => simp [Outcome.state]
  | some l =>
    simp only
    by_cases hneg : l.refs - 1 < 0
    · simp [hneg, Outcome.state, mapGet_mapSet_ne _ _ _ _ hne]
    · by_cases hv : l.value = 0
      · by_cases h0 : l.refs - 1 = 0
        · simp [hneg, hv, h0, Semaphore.Release, Outcome.state, mapGet_mapDelete_ne _ _ _ hne]
        · simp [hneg, hv, h0, Semaphore.Release, Outcome.state, mapGet_mapSet_ne _ _ _ _ hne]
      · by_cases h0 : l.refs - 1 = 0
        · by_cases hwg : m.wg = 0
          · simp [hneg, hv, h0, hwg, Semaphore.Release, Outcome.state,
              mapGet_mapDelete_ne _ _ _ hne]
          · simp [hneg, hv, h0, hwg, Semaphore.Release, Outcome.state,
              mapGet_mapDelete_ne _ _ _ hne]
        · by_cases hwg : m.wg = 0
          · simp [hneg, hv, h0, hwg, Semaphore.Release, Outcome.state,
              mapGet_mapSet_ne _ _ _ _ hne]
          · simp [hneg, hv, h0, hwg, Semaphore.Release, Outcome.state,
              mapGet_mapSet_ne _ _ _ _ hne]

theorem LimitMap.Acquire_kind_of_lookup (m1 m2 : LimitMap) (key : String) (c : Nat)
    (h : mapGet m1.limits key = mapGet m2.limits key) :
    (m1.Acquire key c).isDone = (m2.Acquire key c).isDone ∧
    (m1.Acquire key c).isBlocked = (m2.Acquire key c).isBlocked ∧
    (m1.Acquire key c).isPanic = (m2.Acquire key c).isPanic := by
  cases hg : mapGet m2.limits key with
  | some l =>
    rw [hg] at h
    by_cases ht : (l.value + 1) % UINT_MOD ≤ l.max
    · rw [LimitMap.Acquire_present_granted m1 key c l h ht,
        LimitMap.Acquire_present_granted m2 key c l hg ht]
      exact ⟨rfl, rfl, rfl⟩
    · rw [LimitMap.Acquire_present_blocked m1 key c l h ht,
        LimitMap.Acquire_present_blocked m2 key c l hg ht]
      exact ⟨rfl, rfl, rfl⟩
  | none =>
    rw [hg] at h
    by_cases hc : c = 0
    · subst hc
      simp [LimitMap.Acquire, LimitMap.acquireStart_absent_zero m1 key h,
        LimitMap.acquireStart_absent_zero m2 key hg, Outcome.isDone, Outcome.isBlocked,
        Outcome.isPanic]
    · rw [LimitMap.Acquire_absent m1 key c h (by omega),
        LimitMap.Acquire_absent m2 key c hg (by omega)]
      exact ⟨rfl, rfl, rfl⟩

/-- C9: for distinct keys `k` and `k'`, `Acquire(k, c)` and `Release(k)`,
however they end, leave the entry of `k'` (its presence, `refs`, `max` and
`value`) as it was, and `Acquire(k', c')` ends the same way (granted, blocked or
panic) after them as before them. -/
theorem keys_independent (m : LimitMap) (k k' : String) (c c' : Nat) (hne : k ≠ k') :
    mapGet (m.Acquire k c).state.limits k' = mapGet m.limits k' ∧
    mapGet (m.Release k).state.limits k' = mapGet m.limits k' ∧
    ((m.Acquire k c).state.Acquire k' c').isDone = (m.Acquire k' c').isDone ∧
    ((m.Acquire k c).state.Acquire k' c').isBlocked = (m.Acquire k' c').isBlocked ∧
    ((m.Release k).state.Acquire k' c').isDone = (m.Acquire k' c').isDone ∧
    ((m.Release k).state.Acquire k' c').isBlocked = (m.Acquire k' c').isBlocked := by
  have ha := LimitMap.Acquire_frame m k k' c hne
  have hr := LimitMap.Release_frame m k k' hne
  have hka := LimitMap.Acquire_kind_of_lookup (m.Acquire k c).state m k' c' ha
  have hkr := LimitMap.Acquire_kind_of_lookup (m.Release k).state m k' c' hr
  exact ⟨ha, hr, hka.1, hka.2.1, hkr.1, hkr.2.1⟩

/-- Instance of C9, the scenario of the specification: `Acquire("x", 1)` and
`Acquire("y", 5)` on a new registry are both granted, in either order. -/
theorem keys_independent_witness :
    "x" ≠ "y" ∧
    (NewLimitMap.Acquire "x" 1).isDone = true ∧
    ((NewLimitMap.Acquire "x" 1).state.Acquire "y" 5).isDone = true ∧
    (NewLimitMap.Acquire "y" 5).isDone = true ∧
    ((NewLimitMap.Acquire "y" 5).state.Acquire "x" 1).isDone = true ∧
    ((NewLimitMap.Acquire "x" 1).state.Acquire "y" 5).isDone
      = (NewLimitMap.Acquire "y" 5).isDone :=
  ⟨by decide, by decide, by decide, by decide, by decide,
   (keys_independent NewLimitMap "x" "y" 1 5 (by decide)).2.2.1⟩

/-! ## C10: a key that was removed starts fresh -/

/-- C10: when `Release(key)` completes on an entry with `refs = 1`, whatever its
capacity, the key leaves the map, and the next `Acquire(key, c)` with `c ≥ 1` is
granted at once and makes an entry with `max = c`, `value = 1` and `refs = 1`. -/
theorem removed_key_starts_fresh (m m1 : LimitMap) (key : String) (l : Semaphore) (c : Nat)
    (hl : mapGet m.limits key = some l) (hrefs : l.refs = 1)
    (hrel : m.Release key = .done m1) (hc : 1 ≤ c) :
    mapGet m1.limits key = none ∧
    ∃ m2, m1.Acquire key c = .done m2 ∧ mapGet m2.limits key = some (Semaphore.mk 1 c 1) := by
  obtain ⟨l', hl', _, _, _, _, hlim⟩ := LimitMap.Release_done m m1 key hrel
  rw [hl] at hl'
  injection hl' with hl'
  subst hl'
  have hnone : mapGet m1.limits key = none := by
    rw [hlim]
    simp [hrefs, mapGet_mapDelete_self]
  refine ⟨hnone, _, LimitMap.Acquire_absent m1 key c hnone hc, ?_⟩
  exact mapGet_mapSet_self _ _ _

/-- Instance of C10: "a" held once at capacity 3, released, acquired again at
capacity 10. -/
theorem removed_key_starts_fresh_witness :
    (LimitMap.mk [("a", Semaphore.mk 1 3 1)] 1).Release "a" = .done NewLimitMap ∧
    mapGet NewLimitMap.limits "a" = none ∧
    ∃ m2, NewLimitMap.Acquire "a" 10 = .done m2 ∧
      mapGet m2.limits "a" = some (Semaphore.mk 1 10 1) :=
  ⟨by decide,
   removed_key_starts_fresh (LimitMap.mk [("a", Semaphore.mk 1 3 1)] 1) NewLimitMap "a"
     (Semaphore.mk 1 3 1) 10 (by decide) (by decide) (by decide) (by decide)⟩

/-! ## The map as a whole: keys occur once, the wait group counts `refs` -/

theorem mem_keys_iff (l : List (String × Semaphore)) (key : String) :
    key ∈ l.map Prod.fst ↔ mapGet l key ≠ none := by
  induction l with
  | nil => simp [mapGet]
  | cons e r ih =>
    obtain ⟨k, s⟩ := e
    by_cases hk : k = key
    · simp [mapGet, hk]
    · have hk' : ¬ key = k := fun h => hk h.symm
      simp [mapGet, hk, hk', ih]

theorem keys_mapSet_present (l : List (String × Semaphore)) (key : String) (s : Semaphore)
    (h : mapGet l key ≠ none) : (mapSet l key s).map Prod.fst = l.map Prod.fst := by
  induction l with
  | nil => simp [mapGet] at h
  | cons e r ih =>
    obtain ⟨k, s0⟩ := e
    by_cases hk : k = key
    · simp [mapSet, hk]
    · simp only [mapGet, hk, if_false] at h
      simp [mapSet, hk, ih h]

theorem keys_mapSet_absent (l : List (String × Semaphore)) (key : String) (s : Semaphore)
    (h : mapGet l key = none) : (mapSet l key s).map Prod.fst = l.map Prod.fst ++ [key] := by
  induction l with
  | nil => simp [mapSet]
  | cons e r ih =>
    obtain ⟨k, s0⟩ := e
    by_cases hk : k = key
    · simp [mapGet, hk] at h
    · simp only [mapGet, hk, if_false] at h
      simp [mapSet, hk, ih h]

theorem sumRefs_mapSet_present (l : List (String × Semaphore)) (key : String) (e s : Semaphore)
    (h : mapGet l key = some e) : sumRefs (mapSet l key s) = sumRefs l - e.refs + s.refs := by
  induction l with
  | nil => simp [mapGet] at h
  | cons e0 r ih =>
    obtain ⟨k, s0⟩ := e0
    by_cases hk : k = key
    · simp only [mapGet, hk, if_true] at h
      injection h with h
      subst h
      simp only [mapSet, hk, if_true, sumRefs]
      omega
    · simp only [mapGet, hk, if_false] at h
      simp only [mapSet, hk, if_false, sumRefs, ih h]
      omega

theorem sumRefs_mapSet_absent (l : List (String × Semaphore)) (key : String) (s : Semaphore)
    (h : mapGet l key = none) : sumRefs (mapSet l key s) = sumRefs l + s.refs := by
  induction l with
  | nil => simp [mapSet, sumRefs]
  | cons e0 r ih =>
    obtain ⟨k, s0⟩ := e0
    by_cases hk : k = key
    · simp [mapGet, hk] at h
    · simp only [mapGet, hk, if_false] at h
      simp only [mapSet, hk, if_false, sumRefs, ih h]
      omega

theorem mapDelete_absent (l : List (String × Semaphore)) (key : String)
    (h : mapGet l key = none) : mapDelete l key = l := by
  induction l with
  | nil => rfl
  | cons e0 r ih =>
    obtain ⟨k, s0⟩ := e0
    by_cases hk : k = key
    · simp [mapGet, hk] at h
    · simp only [mapGet, hk, if_false] at h
      simp [mapDelete, hk, ih h]

theorem keys_mapDelete_sublist (l : List (String × Semaphore)) (key : String) :
    ((mapDelete l key).map Prod.fst).Sublist (l.map Prod.fst) := by
  induction l with
  | nil => simp [mapDelete]
  | cons e0 r ih =>
    obtain ⟨k, s0⟩ := e0
    by_cases hk : k = key
    · simp only [mapDelete, hk, if_true, List.map_cons]
      exact List.Sublist.cons _ ih
    · simp only [mapDelete, hk, if_false, List.map_cons]
      exact List.Sublist.cons₂ _ ih

theorem sumRefs_mapDelete (l : List (String × Semaphore)) (key : String) (e : Semaphore)
    (hnd : (l.map Prod.fst).Nodup) (h : mapGet l key = some e) :
    sumRefs (mapDelete l key) = sumRefs l - e.refs := by
  induction l with
  | nil => simp [mapGet] at h
  | cons e0 r ih =>
    obtain ⟨k, s0⟩ := e0
    simp only [List.map_cons, List.nodup_cons] at hnd
    by_cases hk : k = key
    · simp only [mapGet, hk, if_true] at h
      injection h with h
      subst h
      have hnone : mapGet r key = none := by
        by_contra hne
        exact hnd.1 (hk ▸ (mem_keys_iff r key).mpr hne)
      simp only [mapDelete, hk, if_true, sumRefs, mapDelete_absent r key hnone]
      omega
    · simp only [mapGet, hk, if_false] at h
      simp only [mapDelete, hk, if_false, sumRefs, ih hnd.2 h]
      omega

theorem sumRefs_ge_of_mem (l : List (String × Semaphore)) (key : String) (e : Semaphore)
    (hpos : ∀ k s, mapGet l k = some s → 0 ≤ s.refs) (hnd : (l.map Prod.fst).Nodup)
    (h : mapGet l key = some e) : e.refs ≤ sumRefs l := by
  induction l with
  | nil => simp [mapGet] at h
  | cons e0 r ih =>
    obtain ⟨k, s0⟩ := e0
    simp only [List.map_cons, List.nodup_cons] at hnd
    have hr : ∀ k' s, mapGet r k' = some s → 0 ≤ s.refs := by
      intro k' s hs
      have hk' : k ≠ k' := by
        intro heq
        exact hnd.1 (heq ▸ (mem_keys_iff r k').mpr (by rw [hs]; simp))
      exact hpos k' s (by simp [mapGet, hk', hs])
    have hsum : ∀ (r' : List (String × Semaphore)),
        (∀ k' s, mapGet r' k' = some s → 0 ≤ s.refs) → (r'.map Prod.fst).Nodup →
        0 ≤ sumRefs r' := by
      intro r'
      induction r' with
      | nil => intro _ _; simp [sumRefs]
      | cons e1 r1 ih1 =>
        obtain ⟨k1, s1⟩ := e1
        intro hp hn
        simp only [List.map_cons, List.nodup_cons] at hn
        have h1 : 0 ≤ s1.refs := hp k1 s1 (by simp [mapGet])
        have h2 : 0 ≤ sumRefs r1 := by
          apply ih1 _ hn.2
          intro k' s hs
          have hk' : k1 ≠ k' := by
            intro heq
            exact hn.1 (heq ▸ (mem_keys_iff r1 k').mpr (by rw [hs]; simp))
          exact hp k' s (by simp [mapGet, hk', hs])
        simp only [sumRefs]
        omega
    by_cases hk : k = key
    · simp only [mapGet, hk, if_true] at h
      injection h with h
      subst h
      have := hsum r hr hnd.2
      simp only [sumRefs]
      omega
    · simp only [mapGet, hk, if_false] at h
      have h0 : 0 ≤ s0.refs := hpos k s0 (by simp [mapGet])
      have := ih hr hnd.2 h
      simp only [sumRefs]
      omega

theorem System.step_start_done (σ σ' : System) (key : String) (max : Nat)
    (h : σ.step (.start key max) = some σ') : σ.m.acquireStart key max = .done σ'.m := by
  unfold System.step at h
  cases ho : σ.m.acquireStart key max with
  | blocked m' => simp [ho] at h
  | panic p m' => simp [ho] at h
  | done m' =>
    simp only [ho] at h
    injection h with h
    subst h
    rfl

theorem System.step_grant_done (σ σ' : System) (key : String)
    (h : σ.step (.grant key) = some σ') : σ.m.acquireGrant key = .done σ'.m := by
  unfold System.step at h
  by_cases hw : key ∈ σ.waiting
  · simp only [hw, if_true] at h
    cases ho : σ.m.acquireGrant key with
    | blocked m' => simp [ho] at h
    | panic p m' => simp [ho] at h
    | done m' =>
      simp only [ho] at h
      injection h with h
      subst h
      rfl
  · simp [hw] at h

theorem System.step_release_done (σ σ' : System) (key : String)
    (h : σ.step (.release key) = some σ') : σ.m.Release key = .done σ'.m := by
  unfold System.step at h
  cases ho : σ.m.Release key with
  | blocked m' => simp [ho] at h
  | panic p m' => simp [ho] at h
  | done m' =>
    simp only [ho] at h
    injection h with h
    subst h
    rfl

theorem RegInv.step_preserves (σ σ' : System) (e : Event) (hinv : RegInv σ.m)
    (hstep : σ.step e = some σ') : RegInv σ'.m := by
  obtain ⟨hnd, hwg⟩ := hinv
  cases e with
  | start key c =>
    have hdone := System.step_start_done σ σ' key c hstep
    cases hg : mapGet σ.m.limits key with
    | some l =>
      rw [LimitMap.acquireStart_present σ.m key c l hg] at hdone
      injection hdone with hdone
      rw [← hdone]
      refine ⟨?_, ?_⟩
      · show ((mapSet σ.m.limits key _).map Prod.fst).Nodup
        rw [keys_mapSet_present _ _ _ (by rw [hg]; simp)]
        exact hnd
      · show ((σ.m.wg + 1 : Nat) : Int) = sumRefs (mapSet σ.m.limits key _)
        rw [sumRefs_mapSet_present _ _ l _ hg]
        push_cast
        show (σ.m.wg : Int) + 1 = sumRefs σ.m.limits - l.refs + (l.refs + 1)
        omega
    | none =>
      by_cases h0 : c = 0
      · subst h0
        rw [LimitMap.acquireStart_absent_zero σ.m key hg] at hdone
        exact absurd hdone (by simp)
      · rw [LimitMap.acquireStart_absent σ.m key c hg h0] at hdone
        injection hdone with hdone
        rw [← hdone]
        have hself : mapGet (mapSet σ.m.limits key (Semaphore.mk 0 c 0)) key
            = some (Semaphore.mk 0 c 0) := mapGet_mapSet_self _ _ _
        refine ⟨?_, ?_⟩
        · show ((mapSet (mapSet σ.m.limits key _) key _).map Prod.fst).Nodup
          rw [keys_mapSet_present _ _ _ (by rw [hself]; simp), keys_mapSet_absent _ _ _ hg]
          refine List.Nodup.append hnd (List.nodup_singleton _) ?_
          intro k hk1 hk2
          have hk : k = key := by simpa using hk2
          subst hk
          exact ((mem_keys_iff σ.m.limits k).mp hk1) hg
        · show ((σ.m.wg + 1 : Nat) : Int) = sumRefs (mapSet (mapSet σ.m.limits key _) key _)
          rw [sumRefs_mapSet_present _ _ _ _ hself, sumRefs_mapSet_absent _ _ _ hg]
          push_cast
          show (σ.m.wg : Int) + 1 = sumRefs σ.m.limits + 0 - 0 + 1
          omega
  | grant key =>
    have hdone := System.step_grant_done σ σ' key hstep
    obtain ⟨l, hl, _, hm⟩ := LimitMap.acquireGrant_done σ.m σ'.m key hdone
    rw [hm]
    refine ⟨?_, ?_⟩
    · show ((mapSet σ.m.limits key _).map Prod.fst).Nodup
      rw [keys_mapSet_present _ _ _ (by rw [hl]; simp)]
      exact hnd
    · show (σ.m.wg : Int) = sumRefs (mapSet σ.m.limits key _)
      rw [sumRefs_mapSet_present _ _ l _ hl, hwg]
      show sumRefs σ.m.limits = sumRefs σ.m.limits - l.refs + l.refs
      omega
  | release key =>
    have hdone := System.step_release_done σ σ' key hstep
    obtain ⟨l, hl, hr, _, hpos, hwg', hlim⟩ := LimitMap.Release_done σ.m σ'.m key hdone
    unfold RegInv
    rw [hlim, hwg']
    by_cases h1 : l.refs = 1
    · simp only [h1, if_true]
      refine ⟨List.Nodup.sublist (keys_mapDelete_sublist _ _) hnd, ?_⟩
      rw [sumRefs_mapDelete _ _ l hnd hl]
      omega
    · simp only [h1, if_false]
      have hself : mapGet (mapSet σ.m.limits key { l with refs := l.refs - 1 }) key
          = some { l with refs := l.refs - 1 } := mapGet_mapSet_self _ _ _
      refine ⟨?_, ?_⟩
      · rw [keys_mapSet_present _ _ _ (by rw [hself]; simp),
          keys_mapSet_present _ _ _ (by rw [hl]; simp)]
        exact hnd
      · rw [sumRefs_mapSet_present _ _ _ _ hself, sumRefs_mapSet_present _ _ l _ hl]
        show ((σ.m.wg - 1 : Nat) : Int)
          = sumRefs σ.m.limits - l.refs + (l.refs - 1) - (l.refs - 1) + (l.refs - 1)
        omega

theorem RegInv.run_preserves (σ0 σ : System) (tr : List Event) (h0 : RegInv σ0.m)
    (hrun : σ0.run tr = some σ) : RegInv σ.m := by
  induction tr generalizing σ0 with
  | nil =>
    simp only [System.run] at hrun
    injection hrun with hrun
    subst hrun
    exact h0
  | cons e es ih =>
    simp only [System.run] at hrun
    cases hs : σ0.step e with
    | none => simp [hs] at hrun
    | some σ1 =>
      simp only [hs] at hrun
      exact ih σ1 (RegInv.step_preserves σ0 σ1 e h0 hs) hrun

/-- For every capacity below the largest `uint`: in a state reached from
`NewLimitMap()` with no call left waiting, `Release(key)` on a key
that is in the map returns, and on a key that is not in the map it panics and
leaves the registry as it was. -/
theorem LimitMap.Release_done_of_present (tr : List Event) (σ : System) (key : String)
    (hrun : (System.idle NewLimitMap).run tr = some σ) (hw : σ.waiting = []) :
    (∀ e, mapGet σ.m.limits key = some e → e.max + 1 < UINT_MOD →
      (σ.m.Release key).isDone = true) ∧
    (mapGet σ.m.limits key = none → σ.m.Release key = .panic .keyNotInMap σ.m) := by
  refine ⟨fun e he hmax => ?_, fun hnone => by simp [LimitMap.Release, hnone]⟩
  obtain ⟨h1, h2, h3, _, h5⟩ :=
    KeyInv.run (System.idle NewLimitMap) key rfl (by simp [System.idle]) tr σ hrun
  obtain ⟨a1, a2, a3, a4, a5⟩ := h5 e he
  obtain ⟨hnd, hwg⟩ := RegInv.run_preserves (System.idle NewLimitMap) σ tr
    ⟨by simp [System.idle, NewLimitMap], by simp [System.idle, NewLimitMap, sumRefs]⟩ hrun
  have hcount : σ.waiting.count key = 0 := by simp [hw]
  have hheld := a5 hmax
  have hvalue : e.value = granted key tr - released key tr := by
    rw [a3]
    apply Nat.mod_eq_of_lt
    omega
  have hrefs : ∀ k s, mapGet σ.m.limits k = some s → 0 ≤ s.refs := by
    intro k s hs
    obtain ⟨_, _, _, _, b5⟩ :=
      KeyInv.run (System.idle NewLimitMap) k rfl (by simp [System.idle]) tr σ hrun
    obtain ⟨b1, b2, _⟩ := b5 s hs
    omega
  have hsum := sumRefs_ge_of_mem σ.m.limits key e hrefs hnd he
  have hneg : ¬ (e.refs - 1 < 0) := by omega
  have hv : e.value ≠ 0 := by omega
  have hwg0 : σ.m.wg ≠ 0 := by omega
  simp [LimitMap.Release, he, hneg, Semaphore.Release, hv, hwg0, Outcome.isDone]

/-! ## C18 and C15: the checks after the semaphore calls -/

theorem LimitMap.Release_panic_cases (m st : LimitMap) (key : String) (p : Panic)
    (h : m.Release key = .panic p st) :
    (p = .keyNotInMap ∧ mapGet m.limits key = none) ∨
    (p = .refsNegative ∧ ∃ l, mapGet m.limits key = some l ∧ l.refs - 1 < 0) ∨
    (p = .semReleaseWithoutAcquire ∧ ∃ l, mapGet m.limits key = some l ∧ l.value = 0) ∨
    (p = .wgNegative ∧ m.wg = 0) := by
  unfold LimitMap.Release at h
  cases hg : mapGet m.limits key with
  | none =>
    simp only [hg] at h
    injection h with h1 _
    exact Or.inl ⟨h1.symm, rfl⟩
  | some l =>
    simp only [hg] at h
    by_cases hneg : l.refs - 1 < 0
    · simp only [hneg, if_true] at h
      injection h with h1 _
      exact Or.inr (Or.inl ⟨h1.symm, l, rfl, hneg⟩)
    · simp only [hneg, if_false] at h
      by_cases hv : l.value = 0
      · simp only [Semaphore.Release, hv, if_true] at h
        injection h with h1 _
        exact Or.inr (Or.inr (Or.inl ⟨h1.symm, l, rfl, hv⟩))
      · simp only [Semaphore.Release, hv, if_false, gt_iff_lt, Nat.not_lt_zero] at h
        by_cases hwg : m.wg = 0
        · simp only [hwg, if_true] at h
          injection h with h1 _
          exact Or.inr (Or.inr (Or.inr ⟨h1.symm, hwg⟩))
        · simp [hwg] at h

theorem LimitMap.acquireGrant_panic_false (m st : LimitMap) (key : String) (p : Panic) :
    m.acquireGrant key ≠ .panic p st := by
  intro h
  unfold LimitMap.acquireGrant at h
  cases hg : mapGet m.limits key with
  | none => simp [hg] at h
  | some l =>
    simp only [hg] at h
    by_cases ht : (l.value + 1) % UINT_MOD ≤ l.max
    · have hx : ¬ (l.max < (l.value + 1) % UINT_MOD) := by omega
      simp [Semaphore.Acquire, ht, hx] at h
    · simp [Semaphore.Acquire, ht] at h

theorem LimitMap.Acquire_panic_cases (m st : LimitMap) (key : String) (c : Nat) (p : Panic)
    (h : m.Acquire key c = .panic p st) :
    p = .semMaxZero ∧ mapGet m.limits key = none ∧ c = 0 ∧ st = m := by
  cases hg : mapGet m.limits key with
  | some l =>
    by_cases ht : (l.value + 1) % UINT_MOD ≤ l.max
    · rw [LimitMap.Acquire_present_granted m key c l hg ht] at h
      exact absurd h (by simp)
    · rw [LimitMap.Acquire_present_blocked m key c l hg ht] at h
      exact absurd h (by simp)
  | none =>
    by_cases hc : c = 0
    · subst hc
      simp only [LimitMap.Acquire, LimitMap.acquireStart_absent_zero m key hg] at h
      injection h with h1 h2
      exact ⟨h1.symm, rfl, rfl, h2.symm⟩
    · rw [LimitMap.Acquire_absent m key c hg (by omega)] at h
      exact absurd h (by simp)

/-- C18: a call of `Semaphore.Release` that does not panic returns 0, whatever
`value` and `max` are, not the decremented counter (on a semaphore with
`value = 3` it returns 0 and leaves `value = 2`); so the check `x > l.max` in
`LimitMap.Release` never fires and "Semaphore Release overflow" is never raised. -/
theorem Semaphore.Release_returns_zero (s : Semaphore) (m : LimitMap) (key : String) :
    (∀ s' x, s.Release = .released s' x → x = 0 ∧ ¬ (x > s'.max)) ∧
    (Semaphore.mk 0 5 3).Release = .released (Semaphore.mk 0 5 2) 0 ∧
    (∀ st, m.Release key ≠ .panic .semReleaseOverflow st) := by
  refine ⟨fun s' x h => ?_, by decide, fun st h => ?_⟩
  · obtain ⟨_, _, _, _, hx⟩ := Semaphore.Release_released s s' x h
    subst hx
    exact ⟨rfl, Nat.not_lt_zero _⟩
  · rcases LimitMap.Release_panic_cases m st key _ h with h1 | h1 | h1 | h1 <;>
      exact absurd h1.1 (by decide)

/-- C15: in every state reached from `NewLimitMap()`, the value returned by the
semaphore acquire is at most `max`, `refs` stays non-negative when `Release`
decrements it, and the value returned by the semaphore release is at most `max`;
no call of `LimitMap.Acquire` or `LimitMap.Release` in such a state ends in
"Semaphore Acquire overflow", "LimitMap internal error: refs < 0." or
"Semaphore Release overflow". -/
theorem internal_error_panics_unreachable (tr : List Event) (σ : System) (key : String)
    (c : Nat) (hrun : (System.idle NewLimitMap).run tr = some σ) :
    (∀ l l' x, mapGet σ.m.limits key = some l → l.Acquire = .granted l' x → x ≤ l'.max) ∧
    (∀ l, mapGet σ.m.limits key = some l → 0 ≤ l.refs - 1) ∧
    (∀ l l' x, mapGet σ.m.limits key = some l → l.Release = .released l' x → x ≤ l'.max) ∧
    (∀ st, σ.m.Acquire key c ≠ .panic .semAcquireOverflow st) ∧
    (∀ st, σ.m.acquireGrant key ≠ .panic .semAcquireOverflow st) ∧
    (∀ st, σ.m.Release key ≠ .panic .refsNegative st) ∧
    (∀ st, σ.m.Release key ≠ .panic .semReleaseOverflow st) := by
  obtain ⟨_, _, _, _, h5⟩ :=
    KeyInv.run (System.idle NewLimitMap) key rfl (by simp [System.idle]) tr σ hrun
  have hrefs : ∀ l, mapGet σ.m.limits key = some l → 0 ≤ l.refs - 1 := by
    intro l hl
    obtain ⟨a1, a2, _⟩ := h5 l hl
    omega
  refine ⟨fun l l' x _ hg => ?_, hrefs, fun l l' x _ hr => ?_, fun st h => ?_,
    fun st => LimitMap.acquireGrant_panic_false σ.m st key _, fun st h => ?_, fun st h => ?_⟩
  · obtain ⟨a1, _, _, a4, _⟩ := Semaphore.Acquire_granted_le l l' x hg
    omega
  · obtain ⟨_, _, _, _, hx⟩ := Semaphore.Release_released l l' x hr
    omega
  · have := (LimitMap.Acquire_panic_cases σ.m st key c _ h).1
    exact absurd this (by decide)
  · rcases LimitMap.Release_panic_cases σ.m st key _ h with h1 | h1 | h1 | h1
    · exact absurd h1.1 (by decide)
    · obtain ⟨_, l, hl, hneg⟩ := h1
      have := hrefs l hl
      omega
    · exact absurd h1.1 (by decide)
    · exact absurd h1.1 (by decide)
  · rcases LimitMap.Release_panic_cases σ.m st key _ h with h1 | h1 | h1 | h1 <;>
      exact absurd h1.1 (by decide)

/-- Instance of C15: two holders of "a" at capacity 2; the next `Acquire` blocks
and `Release` returns, neither panics. -/
theorem internal_error_panics_unreachable_witness :
    (System.idle NewLimitMap).run [.start "a" 2, .grant "a", .start "a" 2, .grant "a"]
      = some (System.mk (LimitMap.mk [("a", Semaphore.mk 2 2 2)] 2) []) ∧
    (LimitMap.mk [("a", Semaphore.mk 2 2 2)] 2).Acquire "a" 2
      = .blocked (LimitMap.mk [("a", Semaphore.mk 3 2 2)] 3) ∧
    (LimitMap.mk [("a", Semaphore.mk 2 2 2)] 2).Release "a"
      = .done (LimitMap.mk [("a", Semaphore.mk 1 2 1)] 1) ∧
    (∀ l, mapGet (LimitMap.mk [("a", Semaphore.mk 2 2 2)] 2).limits "a" = some l →
      0 ≤ l.refs - 1) :=
  ⟨by decide, by decide, by decide,
   (internal_error_panics_unreachable [.start "a" 2, .grant "a", .start "a" 2, .grant "a"]
      (System.mk (LimitMap.mk [("a", Semaphore.mk 2 2 2)] 2) []) "a" 2 (by decide)).2.1⟩

/-! ## C16: `Acquire` followed by `Release` -/

theorem LimitMap.Release_of_held (m : LimitMap) (key : String) (l : Semaphore)
    (h : mapGet m.limits key = some l) (hrefs : 2 ≤ l.refs) (hv : l.value ≠ 0)
    (hwg : m.wg ≠ 0) :
    m.Release key
      = .done { limits := mapSet (mapSet m.limits key { l with refs := l.refs - 1 }) key
                  { l with refs := l.refs - 1, value := l.value - 1 },
                wg := m.wg - 1 } := by
  have hneg : ¬ (l.refs - 1 < 0) := by omega
  have h0 : ¬ (l.refs - 1 = 0) := by omega
  simp [LimitMap.Release, h, hneg, h0, Semaphore.Release, hv, hwg]

theorem LimitMap.Release_of_last (m : LimitMap) (key : String) (l : Semaphore)
    (h : mapGet m.limits key = some l) (hrefs : l.refs = 1) (hv : l.value ≠ 0)
    (hwg : m.wg ≠ 0) :
    m.Release key = .done { limits := mapDelete m.limits key, wg := m.wg - 1 } := by
  simp [LimitMap.Release, h, hrefs, Semaphore.Release, hv, hwg]

/-- C16: in a state reached from `NewLimitMap()`, when `key` is absent, or
present with `value < max` (a `uint`), `Acquire(key, c)` with `c ≥ 1` returns
and the `Release(key)` that follows returns too and leaves the map with the
same keys, the same `refs`, `max` and `value` at every key, and the same
counter in the wait group as before the two calls. -/
theorem acquire_then_release_identity (tr : List Event) (σ : System) (key : String) (c : Nat)
    (hrun : (System.idle NewLimitMap).run tr = some σ) (hc : 1 ≤ c)
    (hroom : mapGet σ.m.limits key = none ∨
      ∃ l, mapGet σ.m.limits key = some l ∧ l.value < l.max ∧ l.max < UINT_MOD) :
    ∃ m1 m2, σ.m.Acquire key c = .done m1 ∧ m1.Release key = .done m2 ∧
      (∀ k, mapGet m2.limits k = mapGet σ.m.limits k) ∧ m2.wg = σ.m.wg := by
  rcases hroom with hnone | ⟨l, hl, hlt, hmax⟩
  · refine ⟨_, _, LimitMap.Acquire_absent σ.m key c hnone hc,
      LimitMap.Release_of_last _ key (Semaphore.mk 1 c 1) (mapGet_mapSet_self _ _ _) rfl
        (by show (1 : Nat) ≠ 0; omega) (by simp), fun k => ?_, by simp⟩
    by_cases hk : key = k
    · subst hk
      rw [hnone]
      exact mapGet_mapDelete_self _ _
    · show mapGet (mapDelete (mapSet (mapSet (mapSet σ.m.limits key _) key _) key _) key) k = _
      rw [mapGet_mapDelete_ne _ _ _ hk, mapGet_mapSet_ne _ _ _ _ hk,
        mapGet_mapSet_ne _ _ _ _ hk, mapGet_mapSet_ne _ _ _ _ hk]
  · obtain ⟨_, _, _, _, h5⟩ :=
      KeyInv.run (System.idle NewLimitMap) key rfl (by simp [System.idle]) tr σ hrun
    obtain ⟨a1, a2, _⟩ := h5 l hl
    have hmod : (l.value + 1) % UINT_MOD = l.value + 1 := Nat.mod_eq_of_lt (by omega)
    have ht : (l.value + 1) % UINT_MOD ≤ l.max := by omega
    have hself : mapGet (mapSet (mapSet σ.m.limits key { l with refs := l.refs + 1 }) key
        { l with refs := l.refs + 1, value := (l.value + 1) % UINT_MOD }) key
        = some { l with refs := l.refs + 1, value := (l.value + 1) % UINT_MOD } :=
      mapGet_mapSet_self _ _ _
    refine ⟨_, _, LimitMap.Acquire_present_granted σ.m key c l hl ht,
      LimitMap.Release_of_held _ key _ hself (by show 2 ≤ l.refs + 1; omega)
        (by show (l.value + 1) % UINT_MOD ≠ 0; omega) (by simp), fun k => ?_, by simp⟩
    by_cases hk : key = k
    · subst hk
      rw [hl]
      show mapGet (mapSet _ key _) key = _
      rw [mapGet_mapSet_self]
      have e1 : l.refs + 1 - 1 = l.refs := by omega
      have e2 : (l.value + 1) % UINT_MOD - 1 = l.value := by omega
      simp only [e1, e2]
    · show mapGet (mapSet (mapSet (mapSet (mapSet σ.m.limits key _) key _) key _) key _) k = _
      rw [mapGet_mapSet_ne _ _ _ _ hk, mapGet_mapSet_ne _ _ _ _ hk,
        mapGet_mapSet_ne _ _ _ _ hk, mapGet_mapSet_ne _ _ _ _ hk]

/-- Instance of C16: "a" held once at capacity 2; one more `Acquire("a", 2)` and
the `Release("a")` after it lead back to the same registry. -/
theorem acquire_then_release_identity_witness :
    (LimitMap.mk [("a", Semaphore.mk 1 2 1)] 1).Acquire "a" 2
      = .done (LimitMap.mk [("a", Semaphore.mk 2 2 2)] 2) ∧
    (LimitMap.mk [("a", Semaphore.mk 2 2 2)] 2).Release "a"
      = .done (LimitMap.mk [("a", Semaphore.mk 1 2 1)] 1) ∧
    ∃ m1 m2, (LimitMap.mk [("a", Semaphore.mk 1 2 1)] 1).Acquire "a" 2 = .done m1 ∧
      m1.Release "a" = .done m2 ∧
      (∀ k, mapGet m2.limits k = mapGet (LimitMap.mk [("a", Semaphore.mk 1 2 1)] 1).limits k) ∧
      m2.wg = 1 :=
  ⟨by decide, by decide,
   acquire_then_release_identity [.start "a" 2, .grant "a"]
     (System.mk (LimitMap.mk [("a", Semaphore.mk 1 2 1)] 1) []) "a" 2 (by decide) (by decide)
     (Or.inr ⟨Semaphore.mk 1 2 1, by decide, by decide, by decide⟩)⟩

/-! ## C17: the wait group counts `refs` -/

/-- C17: in every state reached from `NewLimitMap()` by starts and grants of
`Acquire` and by completed `Release` calls, the counter of the wait group is the
sum of `refs` over the entries of the map, each key counted once; and `refs` of
an entry is the number of calls still waiting for the key plus the number of
grants not yet released, so the counter covers blocked acquirers too. -/
theorem outstanding_eq_sum_refs (tr : List Event) (σ : System) (key : String)
    (hrun : (System.idle NewLimitMap).run tr = some σ) :
    (σ.m.wg : Int) = sumRefs σ.m.limits ∧ (σ.m.limits.map Prod.fst).Nodup ∧
    (∀ e, mapGet σ.m.limits key = some e →
      e.refs = (σ.waiting.count key : Int)
        + ((granted key tr : Int) - (released key tr : Int))) := by
  obtain ⟨hnd, hwg⟩ := RegInv.run_preserves (System.idle NewLimitMap) σ tr
    ⟨by simp [System.idle, NewLimitMap], by simp [System.idle, NewLimitMap, sumRefs]⟩ hrun
  obtain ⟨h1, h2, h3, _, h5⟩ :=
    KeyInv.run (System.idle NewLimitMap) key rfl (by simp [System.idle]) tr σ hrun
  refine ⟨hwg, hnd, fun e he => ?_⟩
  obtain ⟨_, a2, _⟩ := h5 e he
  rw [a2, h3]
  omega

/-- Instance of C17: one holder and one blocked acquirer of "a" at capacity 1,
one holder of "b"; the counter is 3 = 2 + 1. -/
theorem outstanding_eq_sum_refs_witness :
    (System.idle NewLimitMap).run [.start "a" 1, .grant "a", .start "a" 1, .start "b" 4, .grant "b"]
      = some (System.mk (LimitMap.mk [("a", Semaphore.mk 2 1 1), ("b", Semaphore.mk 1 4 1)] 3)
          ["a"]) ∧
    ((3 : Nat) : Int) = sumRefs [("a", Semaphore.mk 2 1 1), ("b", Semaphore.mk 1 4 1)] :=
  ⟨by decide,
   (outstanding_eq_sum_refs [.start "a" 1, .grant "a", .start "a" 1, .start "b" 4, .grant "b"]
      (System.mk (LimitMap.mk [("a", Semaphore.mk 2 1 1), ("b", Semaphore.mk 1 4 1)] 3) ["a"])
      "a" (by decide)).1⟩

/-! ## `Size` -/

theorem uint_mod_cast : ((UINT_MOD : Nat) : Int) = 18446744073709551616 := by
  decide

theorem wrapInt_emod (i : Int) : wrapInt i % (UINT_MOD : Int) = i % (UINT_MOD : Int) := by
  unfold wrapInt
  rw [uint_mod_cast]
  split <;> omega

theorem wrapInt_congr (i j : Int) (h : i % (UINT_MOD : Int) = j % (UINT_MOD : Int)) :
    wrapInt i = wrapInt j := by
  unfold wrapInt
  rw [h]

theorem wrapInt_add_wrapInt (i j : Int) : wrapInt (wrapInt i + wrapInt j) = wrapInt (i + j) := by
  apply wrapInt_congr
  have h1 := wrapInt_emod i
  have h2 := wrapInt_emod j
  rw [uint_mod_cast] at *
  omega

theorem wrapInt_of_small (i : Int) (h0 : 0 ≤ i) (h1 : i < (UINT_MOD : Int) / 2) :
    wrapInt i = i := by
  unfold wrapInt
  rw [uint_mod_cast] at *
  split <;> omega

theorem Size_fold (l : List (String × Semaphore)) (acc : Int) :
    l.foldl (fun total e => wrapInt (total + wrapInt e.2.value)) (wrapInt acc)
      = wrapInt (acc + (sumValues l : Int)) := by
  induction l generalizing acc with
  | nil => simp [sumValues]
  | cons e r ih =>
    obtain ⟨k, s⟩ := e
    simp only [List.foldl_cons, sumValues]
    rw [wrapInt_add_wrapInt, ih]
    congr 1
    push_cast
    omega

theorem LimitMap.Size_total (m : LimitMap) : m.Size.2 = wrapInt (sumValues m.limits : Int) := by
  have h := Size_fold m.limits 0
  have h0 : wrapInt 0 = 0 := by decide
  rw [h0] at h
  simp only [LimitMap.Size]
  rw [h]
  simp

/-- In any state that is a map (every key once) `Size()` returns the number of keys
and the sum of `value` over the entries reduced to the signed 64-bit range,
which is the sum itself whenever the sum is below `2^63`; the call leaves the
registry as it was. -/
theorem Size_snapshot (m : LimitMap) (hnd : (m.limits.map Prod.fst).Nodup) :
    m.Size.1 = ((m.limits.map Prod.fst).toFinset.card : Int) ∧
    m.Size.2 = wrapInt (sumValues m.limits : Int) ∧
    (sumValues m.limits < UINT_MOD / 2 → m.Size.2 = (sumValues m.limits : Int)) ∧
    m.SizeCall.1 = m ∧ m.SizeCall.2 = m.Size := by
  refine ⟨?_, LimitMap.Size_total m, fun hlt => ?_, rfl, rfl⟩
  · rw [List.toFinset_card_of_nodup hnd]
    simp [LimitMap.Size]
  · rw [LimitMap.Size_total]
    apply wrapInt_of_small
    · exact Int.natCast_nonneg _
    · rw [uint_mod_cast]
      have : UINT_MOD / 2 = 9223372036854775808 := by decide
      omega

/-- Two keys holding 2 and 1 grants. -/
theorem Size_snapshot_two_keys :
    ([("a", Semaphore.mk 3 2 2), ("b", Semaphore.mk 1 4 1)].map Prod.fst).Nodup ∧
    (LimitMap.mk [("a", Semaphore.mk 3 2 2), ("b", Semaphore.mk 1 4 1)] 4).Size = (2, 3) ∧
    (LimitMap.mk [("a", Semaphore.mk 3 2 2), ("b", Semaphore.mk 1 4 1)] 4).Size.2
      = (sumValues [("a", Semaphore.mk 3 2 2), ("b", Semaphore.mk 1 4 1)] : Int) :=
  ⟨by decide, by decide,
   (Size_snapshot (LimitMap.mk [("a", Semaphore.mk 3 2 2), ("b", Semaphore.mk 1 4 1)] 4)
      (by decide)).2.2.1 (by decide)⟩

/-! ## C12: what `Wait` waits for -/

theorem System.run_wg (σ0 σ : System) (tr : List Event) (hrun : σ0.run tr = some σ) :
    σ.m.wg + releasedAll tr = σ0.m.wg + startedAll tr := by
  induction tr generalizing σ0 with
  | nil =>
    simp only [System.run] at hrun
    injection hrun with hrun
    subst hrun
    simp [releasedAll, startedAll]
  | cons e es ih =>
    simp only [System.run] at hrun
    cases hs : σ0.step e with
    | none => simp [hs] at hrun
    | some σ1 =>
      simp only [hs] at hrun
      have h := ih σ1 hrun
      cases e with
      | start k c =>
        obtain ⟨_, hw, _⟩ := System.step_start σ0 σ1 k c hs
        simp only [releasedAll, startedAll]
        omega
      | grant k =>
        obtain ⟨_, _, hw, _⟩ := System.step_grant σ0 σ1 k hs
        simp only [releasedAll, startedAll]
        omega
      | release k =>
        obtain ⟨_, hw, _⟩ := System.step_release σ0 σ1 k hs
        simp only [releasedAll, startedAll]
        omega

theorem System.run_waiting (σ0 σ : System) (tr : List Event) (hrun : σ0.run tr = some σ) :
    σ.waiting.length + grantedAll tr = σ0.waiting.length + startedAll tr := by
  induction tr generalizing σ0 with
  | nil =>
    simp only [System.run] at hrun
    injection hrun with hrun
    subst hrun
    simp [grantedAll, startedAll]
  | cons e es ih =>
    simp only [System.run] at hrun
    cases hs : σ0.step e with
    | none => simp [hs] at hrun
    | some σ1 =>
      simp only [hs] at hrun
      have h := ih σ1 hrun
      cases e with
      | start k c =>
        obtain ⟨hw, _⟩ := System.step_start σ0 σ1 k c hs
        rw [hw] at h
        simp only [grantedAll, startedAll, List.length_cons] at *
        omega
      | grant k =>
        obtain ⟨hmem, hw, _⟩ := System.step_grant σ0 σ1 k hs
        have hpos : 0 < σ0.waiting.length := List.length_pos_of_mem hmem
        rw [hw, List.length_erase_of_mem hmem] at h
        simp only [grantedAll, startedAll] at *
        omega
      | release k =>
        obtain ⟨hw, _⟩ := System.step_release σ0 σ1 k hs
        rw [hw] at h
        simp only [grantedAll, startedAll] at *
        omega

theorem startedAll_eq_sum (S : Finset String) (tr : List Event) (h : ∀ e ∈ tr, e.key ∈ S) :
    startedAll tr = S.sum (fun k => started k tr) := by
  induction tr with
  | nil => simp [startedAll, started]
  | cons e es ih =>
    have hes := ih (fun e' he' => h e' (List.mem_cons_of_mem _ he'))
    have he := h e (List.mem_cons_self _ _)
    cases e with
    | start k c =>
      have hk : k ∈ S := he
      simp only [startedAll, started, Finset.sum_add_distrib, Finset.sum_ite_eq, hk, if_true,
        hes]
    | grant k => simp only [startedAll, started, hes]
    | release k => simp only [startedAll, started, hes]

theorem grantedAll_eq_sum (S : Finset String) (tr : List Event) (h : ∀ e ∈ tr, e.key ∈ S) :
    grantedAll tr = S.sum (fun k => granted k tr) := by
  induction tr with
  | nil => simp [grantedAll, granted]
  | cons e es ih =>
    have hes := ih (fun e' he' => h e' (List.mem_cons_of_mem _ he'))
    have he := h e (List.mem_cons_self _ _)
    cases e with
    | start k c => simp only [grantedAll, granted, hes]
    | grant k =>
      have hk : k ∈ S := he
      simp only [grantedAll, granted, Finset.sum_add_distrib, Finset.sum_ite_eq, hk, if_true,
        hes]
    | release k => simp only [grantedAll, granted, hes]

theorem releasedAll_eq_sum (S : Finset String) (tr : List Event) (h : ∀ e ∈ tr, e.key ∈ S) :
    releasedAll tr = S.sum (fun k => released k tr) := by
  induction tr with
  | nil => simp [releasedAll, released]
  | cons e es ih =>
    have hes := ih (fun e' he' => h e' (List.mem_cons_of_mem _ he'))
    have he := h e (List.mem_cons_self _ _)
    cases e with
    | start k c => simp only [releasedAll, released, hes]
    | grant k => simp only [releasedAll, released, hes]
    | release k =>
      have hk : k ∈ S := he
      simp only [releasedAll, released, Finset.sum_add_distrib, Finset.sum_ite_eq, hk, if_true,
        hes]

theorem System.run_released_le_granted (tr : List Event) (σ : System)
    (hrun : (System.idle NewLimitMap).run tr = some σ) : releasedAll tr ≤ grantedAll tr := by
  have hS : ∀ e ∈ tr, e.key ∈ (tr.map Event.key).toFinset := by
    intro e he
    simp only [List.mem_toFinset, List.mem_map]
    exact ⟨e, he, rfl⟩
  rw [releasedAll_eq_sum _ tr hS, grantedAll_eq_sum _ tr hS]
  apply Finset.sum_le_sum
  intro k _
  exact (KeyInv.run (System.idle NewLimitMap) k rfl (by simp [System.idle]) tr σ hrun).1

/-- C12 as stated fails while a started `Acquire` has not been granted yet:
after `Acquire("a", 1)` has run up to `m.wg.Add(1)`, no `Acquire` and no
`Release` has completed, the two numbers are equal, and the counter `Wait`
blocks on is 1. -/
theorem wait_counter_counts_started_acquire :
    (System.idle NewLimitMap).run [.start "a" 1]
      = some (System.mk (LimitMap.mk [("a", Semaphore.mk 1 1 0)] 1) ["a"]) ∧
    grantedAll [.start "a" 1] = releasedAll [.start "a" 1] ∧
    (LimitMap.mk [("a", Semaphore.mk 1 1 0)] 1).wg ≠ 0 := by
  decide

/-- C12, amended: in every state reached from `NewLimitMap()` the counter
`Wait` blocks on is the number of `Acquire` calls started minus the number of
`Release` calls completed, over all keys; it is 0 exactly when these two are
equal, and then the numbers of granted `Acquire` calls and completed `Release`
calls are equal too; it is 0 on a new registry. -/
theorem wait_counter_eq_started_minus_released (tr : List Event) (σ : System)
    (hrun : (System.idle NewLimitMap).run tr = some σ) :
    σ.m.wg + releasedAll tr = startedAll tr ∧
    releasedAll tr ≤ grantedAll tr ∧ grantedAll tr ≤ startedAll tr ∧
    (σ.m.wg = 0 ↔ startedAll tr = releasedAll tr) ∧
    (σ.m.wg = 0 → grantedAll tr = releasedAll tr) ∧
    NewLimitMap.wg = 0 := by
  have h1 := System.run_wg (System.idle NewLimitMap) σ tr hrun
  have h2 := System.run_waiting (System.idle NewLimitMap) σ tr hrun
  have h3 := System.run_released_le_granted tr σ hrun
  simp only [System.idle, NewLimitMap, List.length_nil, Nat.zero_add] at h1 h2
  refine ⟨h1, h3, by omega, ⟨fun h => by omega, fun h => by omega⟩, fun h => by omega, rfl⟩

/-- Instance of C12: two acquirers of "a" at capacity 1, the second one
granted after the first release; after the second release the counter is 0. -/
theorem wait_counter_eq_started_minus_released_witness :
    (System.idle NewLimitMap).run
      [.start "a" 1, .grant "a", .start "a" 1, .release "a", .grant "a", .release "a"]
      = some (System.idle NewLimitMap) ∧
    (System.idle NewLimitMap).m.wg
      + releasedAll [.start "a" 1, .grant "a", .start "a" 1, .release "a", .grant "a", .release "a"]
      = startedAll [.start "a" 1, .grant "a", .start "a" 1, .release "a", .grant "a", .release "a"] :=
  ⟨by decide,
   (wait_counter_eq_started_minus_released
      [.start "a" 1, .grant "a", .start "a" 1, .release "a", .grant "a", .release "a"]
      (System.idle NewLimitMap) (by decide)).1⟩

/-! ## C13: the two kinds of lock -/

theorem Semaphore.AcquireOps_two_cases (s : Semaphore) :
    s.AcquireOps = [.semLock, .semUnlock] ∨ s.AcquireOps = [.semLock, .semWait] := by
  unfold Semaphore.AcquireOps
  cases s.Acquire with
  | granted s' x => exact Or.inl rfl
  | waits s' => exact Or.inr rfl

theorem Semaphore.ReleaseOps_eq (s : Semaphore) : s.ReleaseOps = [.semLock, .semUnlock] := by
  unfold Semaphore.ReleaseOps
  cases s.Release with
  | released s' x => rfl
  | panics p s' => rfl

theorem LimitMap.AcquireOps_cases (m : LimitMap) (key : String) (max : Nat) :
    (mapGet m.limits key = none ∧ max = 0 ∧ m.AcquireOps key max = [.lkLock]) ∨
    (¬ (mapGet m.limits key = none ∧ max = 0) ∧
      (m.AcquireOps key max = [.lkLock, .lkUnlock, .semLock, .semUnlock] ∨
       m.AcquireOps key max = [.lkLock, .lkUnlock, .semLock, .semWait])) := by
  unfold LimitMap.AcquireOps
  cases hg : mapGet m.limits key with
  | some l =>
    right
    refine ⟨by simp, ?_⟩
    rcases Semaphore.AcquireOps_two_cases { l with refs := l.refs + 1 } with h | h <;> simp [h]
  | none =>
    by_cases h0 : max = 0
    · left
      simp [NewSemaphore, h0]
    · right
      refine ⟨by simp [h0], ?_⟩
      simp only [NewSemaphore, h0, if_false]
      rcases Semaphore.AcquireOps_two_cases (Semaphore.mk (0 + 1) max 0) with h | h
      · left
        show [LockOp.lkLock, LockOp.lkUnlock] ++ (Semaphore.mk (0 + 1) max 0).AcquireOps = _
        rw [h]
        rfl
      · right
        show [LockOp.lkLock, LockOp.lkUnlock] ++ (Semaphore.mk (0 + 1) max 0).AcquireOps = _
        rw [h]
        rfl

theorem LimitMap.ReleaseOps_cases (m : LimitMap) (key : String) :
    ((mapGet m.limits key = none ∨ ∃ l, mapGet m.limits key = some l ∧ l.refs - 1 < 0) ∧
      m.ReleaseOps key = [.lkLock]) ∨
    (¬ (mapGet m.limits key = none ∨ ∃ l, mapGet m.limits key = some l ∧ l.refs - 1 < 0) ∧
      m.ReleaseOps key = [.lkLock, .lkUnlock, .semLock, .semUnlock]) := by
  unfold LimitMap.ReleaseOps
  cases hg : mapGet m.limits key with
  | none => exact Or.inl ⟨Or.inl rfl, rfl⟩
  | some l =>
    by_cases hneg : l.refs - 1 < 0
    · left
      exact ⟨Or.inr ⟨l, rfl, hneg⟩, by simp [hneg]⟩
    · right
      refine ⟨?_, by simp [hneg, Semaphore.ReleaseOps_eq]⟩
      rintro (h | ⟨l', hl', hn⟩)
      · exact absurd h (by simp)
      · injection hl' with hl'
        subst hl'
        exact hneg hn

theorem LimitMap.Acquire_zero_panics_iff (m : LimitMap) (key : String) (max : Nat) :
    m.Acquire key max = .panic .semMaxZero m ↔ (mapGet m.limits key = none ∧ max = 0) := by
  constructor
  · intro h
    obtain ⟨_, h2, h3, _⟩ := LimitMap.Acquire_panic_cases m m key max _ h
    exact ⟨h2, h3⟩
  · rintro ⟨h1, h2⟩
    subst h2
    simp [LimitMap.Acquire, LimitMap.acquireStart_absent_zero m key h1]

theorem LimitMap.Release_inner_panic_iff (m : LimitMap) (key : String) :
    (∃ st, m.Release key = .panic .keyNotInMap st ∨ m.Release key = .panic .refsNegative st) ↔
    (mapGet m.limits key = none ∨ ∃ l, mapGet m.limits key = some l ∧ l.refs - 1 < 0) := by
  constructor
  · rintro ⟨st, h | h⟩
    · rcases LimitMap.Release_panic_cases m st key _ h with h1 | h1 | h1 | h1
      · exact Or.inl h1.2
      · exact absurd h1.1 (by decide)
      · exact absurd h1.1 (by decide)
      · exact absurd h1.1 (by decide)
    · rcases LimitMap.Release_panic_cases m st key _ h with h1 | h1 | h1 | h1
      · exact absurd h1.1 (by decide)
      · exact Or.inr h1.2
      · exact absurd h1.1 (by decide)
      · exact absurd h1.1 (by decide)
  · rintro (h | ⟨l, hl, hneg⟩)
    · exact ⟨m, Or.inl (by simp [LimitMap.Release, h])⟩
    · exact ⟨{ m with limits := mapSet m.limits key { l with refs := l.refs - 1 } },
        Or.inr (by simp [LimitMap.Release, hl, hneg])⟩

/-- C13 as stated fails on the paths that panic inside the critical section:
`Acquire("a", 0)` and `Release("a")` on a new registry panic after
`m.lk.Lock()` and before `m.lk.Unlock()`, so the registry lock is held when the
call ends. -/
theorem registry_lock_held_at_inner_panic :
    NewLimitMap.Acquire "a" 0 = .panic .semMaxZero NewLimitMap ∧
    lkHeldAfter (NewLimitMap.AcquireOps "a" 0) false = true ∧
    NewLimitMap.Release "a" = .panic .keyNotInMap NewLimitMap ∧
    lkHeldAfter (NewLimitMap.ReleaseOps "a") false = true := by
  decide

/-- C13, amended: on every path through `LimitMap.Acquire` and
`LimitMap.Release` no semaphore lock is taken while the registry lock is held;
the registry lock is held at the end of the call exactly on the paths that panic
inside the critical section ("Semaphore with max=0 ..." in `Acquire`, "key not
in map" and "refs < 0" in `Release`), and on no other path, be it a return, a
wait in the semaphore or a later panic. -/
theorem registry_lock_never_nested (m : LimitMap) (key : String) (max : Nat) :
    nested (m.AcquireOps key max) false = false ∧
    nested (m.ReleaseOps key) false = false ∧
    (lkHeldAfter (m.AcquireOps key max) false = true ↔
      m.Acquire key max = .panic .semMaxZero m) ∧
    (lkHeldAfter (m.ReleaseOps key) false = true ↔
      ∃ st, m.Release key = .panic .keyNotInMap st ∨ m.Release key = .panic .refsNegative st) := by
  rw [LimitMap.Acquire_zero_panics_iff, LimitMap.Release_inner_panic_iff]
  refine ⟨?_, ?_, ?_, ?_⟩
  · rcases LimitMap.AcquireOps_cases m key max with ⟨_, _, h⟩ | ⟨_, h | h⟩ <;>
      rw [h] <;> rfl
  · rcases LimitMap.ReleaseOps_cases m key with ⟨_, h⟩ | ⟨_, h⟩ <;> rw [h] <;> rfl
  · rcases LimitMap.AcquireOps_cases m key max with ⟨h1, h2, h⟩ | ⟨hn, h | h⟩
    · rw [h]
      exact ⟨fun _ => ⟨h1, h2⟩, fun _ => rfl⟩
    · rw [h]
      exact ⟨fun hc => absurd hc (by decide), fun hc => absurd hc hn⟩
    · rw [h]
      exact ⟨fun hc => absurd hc (by decide), fun hc => absurd hc hn⟩
  · rcases LimitMap.ReleaseOps_cases m key with ⟨h1, h⟩ | ⟨hn, h⟩
    · rw [h]
      exact ⟨fun _ => h1, fun _ => rfl⟩
    · rw [h]
      exact ⟨fun hc => absurd hc (by decide), fun hc => absurd hc hn⟩

/-! ## C14: `refs` and `value` -/

theorem LimitMap.Release_eq_halves (m : LimitMap) (key : String) :
    m.Release key
      = match mapGet m.limits key with
        | none => m.releaseStart key
        | some l =>
          match m.releaseStart key with
          | .done m1 => m1.releaseFinish key { l with refs := l.refs - 1 }
          | o => o := by
  cases hg : mapGet m.limits key with
  | none => simp [LimitMap.Release, LimitMap.releaseStart, hg]
  | some l =>
    by_cases hneg : l.refs - 1 < 0
    · simp [LimitMap.Release, LimitMap.releaseStart, hg, hneg]
    · by_cases h0 : l.refs - 1 = 0
      · by_cases hv : l.value = 0
        · simp [LimitMap.Release, LimitMap.releaseStart, LimitMap.releaseFinish, hg, hneg, h0,
            Semaphore.Release, hv]
        · simp [LimitMap.Release, LimitMap.releaseStart, LimitMap.releaseFinish, hg, hneg, h0,
            Semaphore.Release, hv]
      · by_cases hv : l.value = 0
        · simp [LimitMap.Release, LimitMap.releaseStart, LimitMap.releaseFinish, hg, hneg, h0,
            Semaphore.Release, hv]
        · simp [LimitMap.Release, LimitMap.releaseStart, LimitMap.releaseFinish, hg, hneg, h0,
            Semaphore.Release, hv]

/-- Between whole calls: in every state reached from `NewLimitMap()` by starts
and grants of `Acquire` and by `Release` calls that run their two critical
sections one right after the other, every entry in the map has `refs ≥ value`. -/
theorem refs_ge_value_between_calls (tr : List Event) (σ : System) (key : String)
    (e : Semaphore) (hrun : (System.idle NewLimitMap).run tr = some σ)
    (he : mapGet σ.m.limits key = some e) : (e.value : Int) ≤ e.refs := by
  obtain ⟨h1, h2, _, _, h5⟩ :=
    KeyInv.run (System.idle NewLimitMap) key rfl (by simp [System.idle]) tr σ hrun
  obtain ⟨_, a2, a3, _⟩ := h5 e he
  have hle : (granted key tr - released key tr) % UINT_MOD ≤ granted key tr - released key tr :=
    Nat.mod_le _ _
  rw [a2, a3]
  omega

/-! ## C14 with every critical section a step -/

theorem LimitMap.acquireStart_done_lookup (m m' : LimitMap) (key : String) (max : Nat)
    (h : m.acquireStart key max = .done m') :
    (∀ k, k ≠ key → mapGet m'.limits k = mapGet m.limits k) ∧
    ((∃ l, mapGet m.limits key = some l ∧
        mapGet m'.limits key = some { l with refs := l.refs + 1 }) ∨
     (mapGet m.limits key = none ∧ max ≠ 0 ∧
        mapGet m'.limits key = some (Semaphore.mk 1 max 0))) := by
  have hs : (System.mk m []).step (.start key max) = some (System.mk m' [key]) := by
    simp [System.step, h]
  obtain ⟨_, _, h3, h4⟩ := System.step_start _ _ key max hs
  exact ⟨h3, h4⟩

theorem LimitMap.acquireGrant_done_lookup (m m' : LimitMap) (key : String)
    (h : m.acquireGrant key = .done m') :
    (∀ k, k ≠ key → mapGet m'.limits k = mapGet m.limits k) ∧
    ∃ l, mapGet m.limits key = some l ∧ (l.value + 1) % UINT_MOD ≤ l.max ∧
      mapGet m'.limits key = some { l with value := (l.value + 1) % UINT_MOD } := by
  obtain ⟨l, hl, ht, hm⟩ := LimitMap.acquireGrant_done m m' key h
  subst hm
  exact ⟨fun k hk => mapGet_mapSet_ne _ _ _ _ (Ne.symm hk), l, hl, ht, mapGet_mapSet_self _ _ _⟩

theorem LimitMap.releaseStart_done (m m' : LimitMap) (key : String)
    (h : m.releaseStart key = .done m') :
    (∀ k, k ≠ key → mapGet m'.limits k = mapGet m.limits k) ∧
    ∃ l, mapGet m.limits key = some l ∧ 0 ≤ l.refs - 1 ∧
      ((l.refs - 1 = 0 ∧ mapGet m'.limits key = none) ∨
       (l.refs - 1 ≠ 0 ∧ mapGet m'.limits key = some { l with refs := l.refs - 1 })) := by
  unfold LimitMap.releaseStart at h
  cases hg : mapGet m.limits key with
  | none => simp [hg] at h
  | some l =>
    simp only [hg] at h
    by_cases hneg : l.refs - 1 < 0
    · simp [hneg] at h
    · simp only [hneg, if_false] at h
      injection h with h
      subst h
      by_cases h0 : l.refs - 1 = 0
      · refine ⟨fun k hk => ?_, l, rfl, by omega, Or.inl ⟨h0, ?_⟩⟩
        · simp only [h0, if_true]
          exact mapGet_mapDelete_ne _ _ _ (Ne.symm hk)
        · simp only [h0, if_true]
          exact mapGet_mapDelete_self _ _
      · refine ⟨fun k hk => ?_, l, rfl, by omega, Or.inr ⟨h0, ?_⟩⟩
        · simp only [h0, if_false]
          exact mapGet_mapSet_ne _ _ _ _ (Ne.symm hk)
        · simp only [h0, if_false]
          exact mapGet_mapSet_self _ _ _

theorem LimitMap.releaseFinish_done (m m' : LimitMap) (key : String) (l : Semaphore)
    (h : m.releaseFinish key l = .done m') :
    0 < l.value ∧
    (l.refs = 0 → m'.limits = m.limits) ∧
    (l.refs ≠ 0 → (∀ k, k ≠ key → mapGet m'.limits k = mapGet m.limits k) ∧
      mapGet m'.limits key = some { l with value := l.value - 1 }) := by
  unfold LimitMap.releaseFinish at h
  by_cases hv : l.value = 0
  · simp [Semaphore.Release, hv] at h
  · simp only [Semaphore.Release, hv, if_false, gt_iff_lt, Nat.not_lt_zero] at h
    by_cases hwg : m.wg = 0
    · simp [hwg] at h
    · simp only [hwg, if_false] at h
      injection h with h
      subst h
      refine ⟨Nat.pos_of_ne_zero hv, fun h0 => by simp [h0], fun h0 => ?_⟩
      simp only [h0, if_false]
      exact ⟨fun k hk => mapGet_mapSet_ne _ _ _ _ (Ne.symm hk), mapGet_mapSet_self _ _ _⟩

theorem count_filter_ne_self (l : List String) (key : String) :
    (l.filter (fun k => k ≠ key)).count key = 0 := by
  apply List.count_eq_zero_of_not_mem
  simp [List.mem_filter]

theorem count_filter_ne_other (l : List String) (key k : String) (hk : k ≠ key) :
    (l.filter (fun k' => k' ≠ key)).count k = l.count k := by
  apply List.count_filter
  simp [hk]

theorem Fine.step_start_facts (σ σ' : Fine) (key : String) (max : Nat)
    (h : σ.step (.start key max) = some σ') :
    σ.m.acquireStart key max = .done σ'.m ∧ σ'.waiting = key :: σ.waiting ∧
    σ'.holding = σ.holding ∧ σ'.releasing = σ.releasing ∧ σ'.detached = σ.detached := by
  unfold Fine.step at h
  cases ho : σ.m.acquireStart key max with
  | blocked m' => simp [ho] at h
  | panic p m' => simp [ho] at h
  | done m' =>
    simp only [ho] at h
    injection h with h
    subst h
    exact ⟨rfl, rfl, rfl, rfl, rfl⟩

theorem Fine.step_grant_facts (σ σ' : Fine) (key : String)
    (h : σ.step (.grant key) = some σ') :
    key ∈ σ.waiting ∧ σ.m.acquireGrant key = .done σ'.m ∧
    σ'.waiting = σ.waiting.erase key ∧ σ'.holding = key :: σ.holding ∧
    σ'.releasing = σ.releasing ∧ σ'.detached = σ.detached := by
  unfold Fine.step at h
  by_cases hw : key ∈ σ.waiting
  · simp only [hw, if_true] at h
    cases ho : σ.m.acquireGrant key with
    | blocked m' => simp [ho] at h
    | panic p m' => simp [ho] at h
    | done m' =>
      simp only [ho] at h
      injection h with h
      subst h
      exact ⟨hw, rfl, rfl, rfl, rfl, rfl⟩
  · simp [hw] at h

theorem Fine.step_releaseStart_facts (σ σ' : Fine) (key : String)
    (h : σ.step (.releaseStart key) = some σ') :
    key ∈ σ.holding ∧ σ.m.releaseStart key = .done σ'.m ∧
    σ'.waiting = σ.waiting ∧ σ'.holding = σ.holding.erase key ∧
    ∃ l, mapGet σ.m.limits key = some l ∧
      ((l.refs - 1 = 0 ∧ σ'.releasing = σ.releasing.filter (fun k => k ≠ key) ∧
          σ'.detached = σ.detached ++
            [(key, { l with refs := l.refs - 1 }, σ.releasing.count key + 1)]) ∨
       (l.refs - 1 ≠ 0 ∧ σ'.releasing = key :: σ.releasing ∧ σ'.detached = σ.detached)) := by
  unfold Fine.step at h
  by_cases hh : key ∈ σ.holding
  · simp only [hh, if_true] at h
    cases hg : mapGet σ.m.limits key with
    | none => simp [hg] at h
    | some l =>
      cases ho : σ.m.releaseStart key with
      | blocked m' => simp [hg, ho] at h
      | panic p m' => simp [hg, ho] at h
      | done m' =>
        simp only [hg, ho] at h
        by_cases h0 : l.refs - 1 = 0
        · simp only [h0, if_true] at h
          injection h with h
          subst h
          exact ⟨hh, rfl, rfl, rfl, l, rfl, Or.inl ⟨h0, rfl, by simp [h0]⟩⟩
        · simp only [h0, if_false] at h
          injection h with h
          subst h
          exact ⟨hh, rfl, rfl, rfl, l, rfl, Or.inr ⟨h0, rfl, rfl⟩⟩
  · simp [hh] at h

theorem Fine.step_releaseFinish_facts (σ σ' : Fine) (key : String)
    (h : σ.step (.releaseFinish key) = some σ') :
    key ∈ σ.releasing ∧ σ'.waiting = σ.waiting ∧ σ'.holding = σ.holding ∧
    σ'.releasing = σ.releasing.erase key ∧ σ'.detached = σ.detached ∧
    ∃ l, mapGet σ.m.limits key = some l ∧ σ.m.releaseFinish key l = .done σ'.m := by
  unfold Fine.step at h
  by_cases hr : key ∈ σ.releasing
  · simp only [hr, if_true] at h
    cases hg : mapGet σ.m.limits key with
    | none => simp [hg] at h
    | some l =>
      simp only [hg] at h
      cases ho : σ.m.releaseFinish key l with
      | blocked m' => simp [ho] at h
      | panic p m' => simp [ho] at h
      | done m' =>
        simp only [ho] at h
        injection h with h
        subst h
        exact ⟨hr, rfl, rfl, rfl, rfl, l, rfl, ho⟩
  · simp [hr] at h

theorem Fine.step_releaseFinishDetached_facts (σ σ' : Fine) (i : Nat)
    (h : σ.step (.releaseFinishDetached i) = some σ') :
    σ'.waiting = σ.waiting ∧ σ'.holding = σ.holding ∧ σ'.releasing = σ.releasing ∧
    ∃ key l n, σ.detached[i]? = some (key, l, n + 1) ∧
      σ.m.releaseFinish key l = .done σ'.m ∧
      σ'.detached = σ.detached.set i (key, { l with value := l.value - 1 }, n) := by
  unfold Fine.step at h
  cases hd : σ.detached[i]? with
  | none => simp [hd] at h
  | some x =>
    obtain ⟨key, l, n⟩ := x
    cases n with
    | zero => simp [hd] at h
    | succ n =>
      simp only [hd] at h
      cases ho : σ.m.releaseFinish key l with
      | blocked m' => simp [ho] at h
      | panic p m' => simp [ho] at h
      | done m' =>
        simp only [ho] at h
        injection h with h
        subst h
        exact ⟨rfl, rfl, rfl, key, l, n, rfl, ho, rfl⟩

theorem DetachedInv.step_preserves_detached (σ σ' : Fine) (e : FineEvent)
    (hinv : DetachedInv σ) (hstep : σ.step e = some σ') : DetachedInv σ' := by
  cases e with
  | start k c =>
    obtain ⟨_, _, _, _, hd⟩ := Fine.step_start_facts σ σ' k c hstep
    intro x hx
    rw [hd] at hx
    exact hinv x hx
  | grant k =>
    obtain ⟨_, _, _, _, _, hd⟩ := Fine.step_grant_facts σ σ' k hstep
    intro x hx
    rw [hd] at hx
    exact hinv x hx
  | releaseStart k =>
    obtain ⟨_, _, _, _, l, _, hcase⟩ := Fine.step_releaseStart_facts σ σ' k hstep
    intro x hx
    rcases hcase with ⟨h0, _, hd⟩ | ⟨_, _, hd⟩
    · rw [hd, List.mem_append, List.mem_singleton] at hx
      rcases hx with hx | hx
      · exact hinv x hx
      · subst hx
        exact h0
    · rw [hd] at hx
      exact hinv x hx
  | releaseFinish k =>
    obtain ⟨_, _, _, _, hd, _⟩ := Fine.step_releaseFinish_facts σ σ' k hstep
    intro x hx
    rw [hd] at hx
    exact hinv x hx
  | releaseFinishDetached i =>
    obtain ⟨_, _, _, key, l, n, hget, _, hd⟩ := Fine.step_releaseFinishDetached_facts σ σ' i hstep
    intro x hx
    rw [hd] at hx
    rcases List.mem_or_eq_of_mem_set hx with hx | hx
    · exact hinv x hx
    · subst hx
      exact hinv (key, l, n + 1) (List.getElem?_mem hget)

theorem FineInv.of_same (σ σ' : Fine) (key : String) (hinv : FineInv σ key)
    (hm : mapGet σ'.m.limits key = mapGet σ.m.limits key)
    (hw : σ'.waiting.count key = σ.waiting.count key)
    (hh : σ'.holding.count key = σ.holding.count key)
    (hr : σ'.releasing.count key = σ.releasing.count key) : FineInv σ' key := by
  unfold FineInv at *
  rw [hm, hw, hh, hr]
  exact hinv

theorem FineInv.step_preserves_entry (σ σ' : Fine) (e : FineEvent)
    (hinv : ∀ key, FineInv σ key) (hdet : DetachedInv σ) (hstep : σ.step e = some σ')
    (key : String) : FineInv σ' key := by
  obtain ⟨habs, hpres⟩ := hinv key
  cases e with
  | start k c =>
    obtain ⟨hdone, hw, hh, hr, _⟩ := Fine.step_start_facts σ σ' k c hstep
    obtain ⟨hother, hkey⟩ := LimitMap.acquireStart_done_lookup σ.m σ'.m k c hdone
    by_cases hk : k = key
    · subst hk
      refine ⟨fun hnone => ?_, fun e' he' => ?_⟩
      · rcases hkey with ⟨l, _, hl'⟩ | ⟨_, _, hl'⟩ <;> simp [hl'] at hnone
      · rw [hw, hh, hr, List.count_cons_self]
        rcases hkey with ⟨l, hl, hl'⟩ | ⟨hnone, _, hl'⟩
        · obtain ⟨a1, a2, a3⟩ := hpres l hl
          rw [hl'] at he'
          injection he' with he'
          subst he'
          refine ⟨?_, ?_, a3⟩
          · show 1 ≤ l.refs + 1
            omega
          · show l.refs + 1 = ((σ.waiting.count k + 1 : Nat) : Int) + (σ.holding.count k : Int)
            push_cast
            omega
        · obtain ⟨b1, b2, b3⟩ := habs hnone
          rw [hl'] at he'
          injection he' with he'
          subst he'
          rw [b1, b2, b3]
          refine ⟨?_, ?_, ?_⟩
          · show (1 : Int) ≤ 1
            omega
          · show (1 : Int) = ((0 + 1 : Nat) : Int) + ((0 : Nat) : Int)
            simp
          · show 0 = (0 + 0) % UINT_MOD
            rfl
    · exact FineInv.of_same σ σ' key (hinv key) (hother key (Ne.symm hk))
        (by rw [hw, List.count_cons_of_ne (Ne.symm hk)]) (by rw [hh]) (by rw [hr])
  | grant k =>
    obtain ⟨hmem, hdone, hw, hh, hr, _⟩ := Fine.step_grant_facts σ σ' k hstep
    obtain ⟨hother, l, hl, ht, hl'⟩ := LimitMap.acquireGrant_done_lookup σ.m σ'.m k hdone
    by_cases hk : k = key
    · subst hk
      have hpos : 0 < σ.waiting.count k := List.count_pos_iff.mpr hmem
      obtain ⟨a1, a2, a3⟩ := hpres l hl
      refine ⟨fun hnone => by simp [hl'] at hnone, fun e' he' => ?_⟩
      rw [hl'] at he'
      injection he' with he'
      subst he'
      rw [hw, hh, hr, List.count_erase_self, List.count_cons_self]
      refine ⟨a1, ?_, ?_⟩
      · show l.refs = ((σ.waiting.count k - 1 : Nat) : Int) + ((σ.holding.count k + 1 : Nat) : Int)
        rw [a2]
        omega
      · show (l.value + 1) % UINT_MOD = (σ.holding.count k + 1 + σ.releasing.count k) % UINT_MOD
        rw [a3, uint_succ_mod]
        congr 1
        omega
    · exact FineInv.of_same σ σ' key (hinv key) (hother key (Ne.symm hk))
        (by rw [hw, List.count_erase_of_ne (Ne.symm hk)])
        (by rw [hh, List.count_cons_of_ne (Ne.symm hk)]) (by rw [hr])
  | releaseStart k =>
    obtain ⟨hmem, hdone, hw, hh, l, hl, hcase⟩ := Fine.step_releaseStart_facts σ σ' k hstep
    obtain ⟨hother, l0, hl0, hnn, hcase0⟩ := LimitMap.releaseStart_done σ.m σ'.m k hdone
    rw [hl] at hl0
    injection hl0 with hl0
    subst hl0
    by_cases hk : k = key
    · subst hk
      have hpos : 0 < σ.holding.count k := List.count_pos_iff.mpr hmem
      obtain ⟨a1, a2, a3⟩ := hpres l hl
      unfold FineInv
      rw [hw, hh, List.count_erase_self]
      rcases hcase with ⟨h0, hr, _⟩ | ⟨h0, hr, _⟩
      · rcases hcase0 with ⟨_, hnone⟩ | ⟨hne, _⟩
        · refine ⟨fun _ => ⟨by omega, by omega, by rw [hr]; exact count_filter_ne_self _ _⟩,
            fun e' he' => ?_⟩
          rw [hnone] at he'
          exact absurd he' (by simp)
        · exact absurd h0 hne
      · rcases hcase0 with ⟨h0', _⟩ | ⟨_, hl'⟩
        · exact absurd h0' h0
        · refine ⟨fun hnone => by simp [hl'] at hnone, fun e' he' => ?_⟩
          rw [hl'] at he'
          injection he' with he'
          subst he'
          rw [hr, List.count_cons_self]
          refine ⟨?_, ?_, ?_⟩
          · show 1 ≤ l.refs - 1
            omega
          · show l.refs - 1 = (σ.waiting.count k : Int) + ((σ.holding.count k - 1 : Nat) : Int)
            rw [a2]
            omega
          · show l.value = (σ.holding.count k - 1 + (σ.releasing.count k + 1)) % UINT_MOD
            rw [a3]
            congr 1
            omega
    · have hrel : σ'.releasing.count key = σ.releasing.count key := by
        rcases hcase with ⟨_, hr, _⟩ | ⟨_, hr, _⟩
        · rw [hr]
          exact count_filter_ne_other _ _ _ (Ne.symm hk)
        · rw [hr, List.count_cons_of_ne (Ne.symm hk)]
      exact FineInv.of_same σ σ' key (hinv key) (hother key (Ne.symm hk)) (by rw [hw])
        (by rw [hh, List.count_erase_of_ne (Ne.symm hk)]) hrel
  | releaseFinish k =>
    obtain ⟨hmem, hw, hh, hr, _, l, hl, hdone⟩ := Fine.step_releaseFinish_facts σ σ' k hstep
    obtain ⟨hv, _, hatt⟩ := LimitMap.releaseFinish_done σ.m σ'.m k l hdone
    obtain ⟨b1, b2, b3⟩ := (hinv k).2 l hl
    obtain ⟨hother, hl'⟩ := hatt (by omega)
    by_cases hk : k = key
    · subst hk
      have hpos : 0 < σ.releasing.count k := List.count_pos_iff.mpr hmem
      refine ⟨fun hnone => by simp [hl'] at hnone, fun e' he' => ?_⟩
      rw [hl'] at he'
      injection he' with he'
      subst he'
      rw [hw, hh, hr, List.count_erase_self]
      refine ⟨b1, b2, ?_⟩
      show l.value - 1 = (σ.holding.count k + (σ.releasing.count k - 1)) % UINT_MOD
      have hvpos : 0 < (σ.holding.count k + σ.releasing.count k) % UINT_MOD := by
        rw [← b3]
        exact hv
      rw [b3, uint_pred_mod _ hvpos]
      congr 1
      omega
    · exact FineInv.of_same σ σ' key (hinv key) (hother key (Ne.symm hk)) (by rw [hw])
        (by rw [hh]) (by rw [hr, List.count_erase_of_ne (Ne.symm hk)])
  | releaseFinishDetached i =>
    obtain ⟨hw, hh, hr, k, l, n, hget, hdone, _⟩ := Fine.step_releaseFinishDetached_facts σ σ' i hstep
    obtain ⟨_, hdetl, _⟩ := LimitMap.releaseFinish_done σ.m σ'.m k l hdone
    have hrefs : l.refs = 0 := hdet (k, l, n + 1) (List.getElem?_mem hget)
    exact FineInv.of_same σ σ' key (hinv key) (by rw [hdetl hrefs]) (by rw [hw]) (by rw [hh])
      (by rw [hr])

theorem FineInv.run_preserves_entry (σ0 σ : Fine) (tr : List FineEvent)
    (h0 : ∀ key, FineInv σ0 key) (hd0 : DetachedInv σ0) (hrun : σ0.run tr = some σ) :
    (∀ key, FineInv σ key) ∧ DetachedInv σ := by
  induction tr generalizing σ0 with
  | nil =>
    simp only [Fine.run] at hrun
    injection hrun with hrun
    subst hrun
    exact ⟨h0, hd0⟩
  | cons e es ih =>
    simp only [Fine.run] at hrun
    cases hs : σ0.step e with
    | none => simp [hs] at hrun
    | some σ1 =>
      simp only [hs] at hrun
      exact ih σ1 (FineInv.step_preserves_entry σ0 σ1 e h0 hd0 hs)
        (DetachedInv.step_preserves_detached σ0 σ1 e hd0 hs) hrun

theorem FineInv.init_holds (key : String) : FineInv Fine.init key := by
  refine ⟨fun _ => ⟨rfl, rfl, rfl⟩, fun e he => ?_⟩
  simp [Fine.init, NewLimitMap, mapGet] at he

/-- C14 as stated fails between the two critical sections of `Release`: with
two holders of "a" at capacity 2 (`refs = 2`, `value = 2`), the first critical
section of a `Release("a")` leaves the entry in the map with `refs = 1` and
`value = 2`; the second one then brings `value` to 1. -/
theorem refs_below_value_inside_release :
    Fine.init.run [.start "a" 2, .grant "a", .start "a" 2, .grant "a", .releaseStart "a"]
      = some (Fine.mk (LimitMap.mk [("a", Semaphore.mk 1 2 2)] 2) [] ["a"] ["a"] []) ∧
    (Semaphore.mk 1 2 2).refs < ((Semaphore.mk 1 2 2).value : Int) ∧
    Fine.init.run [.start "a" 2, .grant "a", .start "a" 2, .grant "a", .releaseStart "a",
        .releaseFinish "a"]
      = some (Fine.mk (LimitMap.mk [("a", Semaphore.mk 1 2 1)] 1) [] ["a"] [] []) := by
  decide

/-- C14, amended: in every state reached from `NewLimitMap()` by critical
sections of `Acquire` and `Release`, each `Release(k)` issued by a holder of a
grant for `k`, every entry in the map has `refs + n ≥ value`, where `n` is the
number of `Release` calls for the key that are between their two critical
sections; so `refs ≥ value` for every key that has no `Release` in progress. -/
theorem refs_ge_value_outside_release (tr : List FineEvent) (σ : Fine) (key : String)
    (e : Semaphore) (hrun : Fine.init.run tr = some σ)
    (he : mapGet σ.m.limits key = some e) :
    (e.value : Int) ≤ e.refs + (σ.releasing.count key : Int) ∧
    (key ∉ σ.releasing → (e.value : Int) ≤ e.refs) := by
  obtain ⟨hinv, _⟩ := FineInv.run_preserves_entry Fine.init σ tr FineInv.init_holds
    (fun x hx => by simp [Fine.init] at hx) hrun
  obtain ⟨_, a2, a3⟩ := (hinv key).2 e he
  have hle : (σ.holding.count key + σ.releasing.count key) % UINT_MOD
      ≤ σ.holding.count key + σ.releasing.count key := Nat.mod_le _ _
  have h1 : (e.value : Int) ≤ e.refs + (σ.releasing.count key : Int) := by
    rw [a2, a3]
    omega
  refine ⟨h1, fun hmem => ?_⟩
  have h0 : σ.releasing.count key = 0 := List.count_eq_zero_of_not_mem hmem
  rw [h0] at h1
  simpa using h1

/-- Instance of C14: one holder and one blocked acquirer of "a" at capacity 1,
no `Release` in progress: `refs = 2`, `value = 1`. -/
theorem refs_ge_value_outside_release_witness :
    Fine.init.run [.start "a" 1, .grant "a", .start "a" 1]
      = some (Fine.mk (LimitMap.mk [("a", Semaphore.mk 2 1 1)] 2) ["a"] ["a"] [] []) ∧
    ((Semaphore.mk 2 1 1).value : Int) ≤ (Semaphore.mk 2 1 1).refs :=
  ⟨by decide,
   (refs_ge_value_outside_release [.start "a" 1, .grant "a", .start "a" 1]
     (Fine.mk (LimitMap.mk [("a", Semaphore.mk 2 1 1)] 2) ["a"] ["a"] [] []) "a"
     (Semaphore.mk 2 1 1) (by decide) (by decide)).2 (by decide)⟩

/-! ## States the code can reach: fewer than `2^31` calls outstanding -/

theorem System.run_refs_le_wg (tr : List Event) (σ : System) (key : String) (e : Semaphore)
    (hrun : (System.idle NewLimitMap).run tr = some σ)
    (he : mapGet σ.m.limits key = some e) : e.refs ≤ (σ.m.wg : Int) := by
  obtain ⟨hnd, hwg⟩ := RegInv.run_preserves (System.idle NewLimitMap) σ tr
    ⟨by simp [System.idle, NewLimitMap], by simp [System.idle, NewLimitMap, sumRefs]⟩ hrun
  have hrefs : ∀ k s, mapGet σ.m.limits k = some s → 0 ≤ s.refs := by
    intro k s hs
    obtain ⟨_, _, _, _, b5⟩ :=
      KeyInv.run (System.idle NewLimitMap) k rfl (by simp [System.idle]) tr σ hrun
    obtain ⟨b1, b2, _⟩ := b5 s hs
    omega
  have hsum := sumRefs_ge_of_mem σ.m.limits key e hrefs hnd he
  omega

theorem System.run_value_exact (tr : List Event) (σ : System) (key : String) (e : Semaphore)
    (hrun : (System.idle NewLimitMap).run tr = some σ)
    (he : mapGet σ.m.limits key = some e) (hwg : σ.m.wg < WG_LIMIT) :
    e.value = granted key tr - released key tr ∧ e.value ≤ e.max ∧ e.value < WG_LIMIT ∧
    (e.value : Int) ≤ e.refs ∧ 1 ≤ e.refs ∧
    (σ.waiting.count key = 0 → 1 ≤ e.value) := by
  obtain ⟨h1, h2, h3, _, h5⟩ :=
    KeyInv.run (System.idle NewLimitMap) key rfl (by simp [System.idle]) tr σ hrun
  obtain ⟨a1, a2, a3, a4, _⟩ := h5 e he
  have hle := System.run_refs_le_wg tr σ key e hrun he
  have hlim : WG_LIMIT = 2147483648 := by decide
  have hsmall : granted key tr - released key tr < UINT_MOD := by
    have : UINT_MOD = 18446744073709551616 := by decide
    omega
  have hv : e.value = granted key tr - released key tr := by
    rw [a3]
    exact Nat.mod_eq_of_lt hsmall
  refine ⟨hv, a4, by omega, by omega, by omega, fun hc => by omega⟩

/-- C1: a semaphore reached from `NewSemaphore(max)` by granted `Acquire` calls
and non-panicking `Release` calls has `value ≤ max`, with the `max` it was made
with; in every state reached from `NewLimitMap()` every semaphore in the map has
`value ≤ max`, and, the wait group being within its range, `value` is the
number of `Acquire` calls for the key that hold a grant, so at most `max` calls
hold one at the same time. -/
theorem capacity_bound_reachable (max : Nat) (s0 s : Semaphore) (trs : List SemEvent)
    (tr : List Event) (σ : System) (key : String) (e : Semaphore)
    (h0 : NewSemaphore max = .ok s0) (hs : s0.run trs = some s)
    (hrun : (System.idle NewLimitMap).run tr = some σ)
    (he : mapGet σ.m.limits key = some e) :
    (s.value ≤ s.max ∧ s.max = max) ∧ e.value ≤ e.max ∧
    (σ.m.wg < WG_LIMIT →
      e.value = granted key tr - released key tr ∧
      granted key tr - released key tr ≤ e.max) := by
  obtain ⟨_, _, _, _, h5⟩ :=
    KeyInv.run (System.idle NewLimitMap) key rfl (by simp [System.idle]) tr σ hrun
  obtain ⟨_, _, _, a4, _⟩ := h5 e he
  refine ⟨Semaphore.run_value_le_max max s0 s trs h0 hs, a4, fun hwg => ?_⟩
  obtain ⟨b1, b2, _⟩ := System.run_value_exact tr σ key e hrun he hwg
  exact ⟨b1, by omega⟩

/-- Instance of C1: capacity 2; two grants are held, by the semaphore alone and
by the key "a" with a third call waiting. -/
theorem capacity_bound_reachable_witness :
    NewSemaphore 2 = .ok (Semaphore.mk 0 2 0) ∧
    (Semaphore.mk 0 2 0).run [.acquire, .acquire, .release, .acquire]
      = some (Semaphore.mk 0 2 2) ∧
    (Semaphore.mk 0 2 0).run [.acquire, .acquire, .acquire] = none ∧
    (System.idle NewLimitMap).run [.start "a" 2, .grant "a", .start "a" 2, .grant "a",
        .start "a" 2]
      = some (System.mk (LimitMap.mk [("a", Semaphore.mk 3 2 2)] 3) ["a"]) ∧
    (Semaphore.mk 3 2 2).value
      = granted "a" [.start "a" 2, .grant "a", .start "a" 2, .grant "a", .start "a" 2]
        - released "a" [.start "a" 2, .grant "a", .start "a" 2, .grant "a", .start "a" 2] ∧
    granted "a" [.start "a" 2, .grant "a", .start "a" 2, .grant "a", .start "a" 2]
        - released "a" [.start "a" 2, .grant "a", .start "a" 2, .grant "a", .start "a" 2]
      ≤ (Semaphore.mk 3 2 2).max :=
  ⟨by decide, by decide, by decide, by decide,
   (capacity_bound_reachable 2 (Semaphore.mk 0 2 0) (Semaphore.mk 0 2 2)
      [.acquire, .acquire, .release, .acquire]
      [.start "a" 2, .grant "a", .start "a" 2, .grant "a", .start "a" 2]
      (System.mk (LimitMap.mk [("a", Semaphore.mk 3 2 2)] 3) ["a"]) "a" (Semaphore.mk 3 2 2)
      (by decide) (by decide) (by decide) (by decide)).2.2 (by decide)⟩

/-- C5: in a state reached from `NewLimitMap()` by completed calls (no call of
`Acquire` is left waiting), the wait group being within its range,
`Release(key)` panics exactly when `key` is not in the map; the panic is the
"key not in map" one and it leaves the map, every `refs` and `value`, and the
counter of the wait group as they were. -/
theorem Release_panics_iff_key_absent (tr : List Event) (σ : System) (key : String)
    (hrun : (System.idle NewLimitMap).run tr = some σ) (hw : σ.waiting = [])
    (hwg : σ.m.wg < WG_LIMIT) :
    ((σ.m.Release key).isPanic = true ↔ mapGet σ.m.limits key = none) ∧
    (mapGet σ.m.limits key = none → σ.m.Release key = .panic .keyNotInMap σ.m) ∧
    (∀ p st, σ.m.Release key = .panic p st → p = .keyNotInMap ∧ st = σ.m) := by
  have habs : mapGet σ.m.limits key = none → σ.m.Release key = .panic .keyNotInMap σ.m := by
    intro hnone
    simp [LimitMap.Release, hnone]
  have hpres : ∀ e, mapGet σ.m.limits key = some e → (σ.m.Release key).isDone = true := by
    intro e he
    obtain ⟨_, _, _, _, b5, b6⟩ := System.run_value_exact tr σ key e hrun he hwg
    have hle := System.run_refs_le_wg tr σ key e hrun he
    have hv : e.value ≠ 0 := by
      have := b6 (by simp [hw])
      omega
    have hneg : ¬ (e.refs - 1 < 0) := by omega
    have hwg0 : σ.m.wg ≠ 0 := by omega
    simp [LimitMap.Release, he, hneg, Semaphore.Release, hv, hwg0, Outcome.isDone]
  refine ⟨⟨fun hp => ?_, fun hnone => by rw [habs hnone]; rfl⟩, habs, fun p st h => ?_⟩
  · cases hg : mapGet σ.m.limits key with
    | none => rfl
    | some e =>
      have hd := hpres e hg
      cases ho : σ.m.Release key with
      | done m' => rw [ho] at hp; exact absurd hp (by simp [Outcome.isPanic])
      | blocked m' => rw [ho] at hd; exact absurd hd (by simp [Outcome.isDone])
      | panic p m' => rw [ho] at hd; exact absurd hd (by simp [Outcome.isDone])
  · cases hg : mapGet σ.m.limits key with
    | none =>
      rw [habs hg] at h
      injection h with h1 h2
      exact ⟨h1.symm, h2.symm⟩
    | some e =>
      have hd := hpres e hg
      rw [h] at hd
      exact absurd hd (by simp [Outcome.isDone])

/-- Instance of C5: "a" is held once and "b" was never acquired: `Release("a")`
returns, `Release("b")` panics and changes nothing. -/
theorem Release_panics_iff_key_absent_witness :
    (System.idle NewLimitMap).run [.start "a" 2, .grant "a"]
      = some (System.mk (LimitMap.mk [("a", Semaphore.mk 1 2 1)] 1) []) ∧
    (LimitMap.mk [("a", Semaphore.mk 1 2 1)] 1).Release "a" = .done NewLimitMap ∧
    (LimitMap.mk [("a", Semaphore.mk 1 2 1)] 1).Release "b"
      = .panic .keyNotInMap (LimitMap.mk [("a", Semaphore.mk 1 2 1)] 1) :=
  ⟨by decide, by decide,
   (Release_panics_iff_key_absent [.start "a" 2, .grant "a"]
      (System.mk (LimitMap.mk [("a", Semaphore.mk 1 2 1)] 1) []) "b" (by decide) (by decide)
      (by decide)).2.1 (by decide)⟩

/-- C6: in a state reached from `NewLimitMap()` in which `key` is in the map
with capacity `m = l.max`, the wait group having room for one more call,
`Acquire(key, c)` ends the same way for every `c`, zero or different from `m`
included: it does not panic, the entry keeps `max = m`, and the call is granted
when `value < m` and blocked otherwise. -/
theorem Acquire_present_first_writer_wins (tr : List Event) (σ : System) (key : String)
    (l : Semaphore) (c c' : Nat) (hrun : (System.idle NewLimitMap).run tr = some σ)
    (hl : mapGet σ.m.limits key = some l) (hwg : σ.m.wg + 1 < WG_LIMIT) :
    σ.m.Acquire key c = σ.m.Acquire key c' ∧
    (σ.m.Acquire key c).isPanic = false ∧
    (∃ l', mapGet (σ.m.Acquire key c).state.limits key = some l' ∧ l'.max = l.max) ∧
    ((σ.m.Acquire key c).isDone = true ↔ l.value < l.max) ∧
    ((σ.m.Acquire key c).isBlocked = true ↔ ¬ l.value < l.max) := by
  obtain ⟨_, b2, b3, _⟩ := System.run_value_exact tr σ key l hrun hl (by omega)
  have hlim : WG_LIMIT = 2147483648 := by decide
  have hmod : (l.value + 1) % UINT_MOD = l.value + 1 := by
    apply Nat.mod_eq_of_lt
    have : UINT_MOD = 18446744073709551616 := by decide
    omega
  by_cases hlt : l.value < l.max
  · have ht : (l.value + 1) % UINT_MOD ≤ l.max := by omega
    rw [LimitMap.Acquire_present_granted σ.m key c l hl ht,
      LimitMap.Acquire_present_granted σ.m key c' l hl ht]
    exact ⟨rfl, rfl, ⟨_, mapGet_mapSet_self _ _ _, rfl⟩, ⟨fun _ => hlt, fun _ => rfl⟩,
      ⟨fun h => absurd h (by simp [Outcome.isBlocked]), fun h => absurd hlt h⟩⟩
  · have ht : ¬ (l.value + 1) % UINT_MOD ≤ l.max := by omega
    rw [LimitMap.Acquire_present_blocked σ.m key c l hl ht,
      LimitMap.Acquire_present_blocked σ.m key c' l hl ht]
    exact ⟨rfl, rfl, ⟨_, mapGet_mapSet_self _ _ _, rfl⟩,
      ⟨fun h => absurd h (by simp [Outcome.isDone]), fun h => absurd h hlt⟩,
      ⟨fun _ => hlt, fun _ => rfl⟩⟩

/-- Instance of C6, the scenario of the specification: "a" first acquired with
capacity 3; `Acquire("a", 10)` and `Acquire("a", 0)` are granted alike and the
capacity stays 3. -/
theorem Acquire_present_first_writer_wins_witness :
    (System.idle NewLimitMap).run [.start "a" 3, .grant "a"]
      = some (System.mk (LimitMap.mk [("a", Semaphore.mk 1 3 1)] 1) []) ∧
    (LimitMap.mk [("a", Semaphore.mk 1 3 1)] 1).Acquire "a" 10
      = .done (LimitMap.mk [("a", Semaphore.mk 2 3 2)] 2) ∧
    (LimitMap.mk [("a", Semaphore.mk 1 3 1)] 1).Acquire "a" 10
      = (LimitMap.mk [("a", Semaphore.mk 1 3 1)] 1).Acquire "a" 0 :=
  ⟨by decide, by decide,
   (Acquire_present_first_writer_wins [.start "a" 3, .grant "a"]
      (System.mk (LimitMap.mk [("a", Semaphore.mk 1 3 1)] 1) []) "a" (Semaphore.mk 1 3 1) 10 0
      (by decide) (by decide) (by decide)).1⟩

theorem sumValues_le_sumRefs (l : List (String × Semaphore))
    (hnd : (l.map Prod.fst).Nodup)
    (h : ∀ k e, mapGet l k = some e → (e.value : Int) ≤ e.refs) :
    (sumValues l : Int) ≤ sumRefs l := by
  induction l with
  | nil => simp [sumValues, sumRefs]
  | cons e0 r ih =>
    obtain ⟨k, s0⟩ := e0
    simp only [List.map_cons, List.nodup_cons] at hnd
    have hr : ∀ k' e, mapGet r k' = some e → (e.value : Int) ≤ e.refs := by
      intro k' e he
      have hk' : k ≠ k' := by
        intro heq
        exact hnd.1 (heq ▸ (mem_keys_iff r k').mpr (by rw [he]; simp))
      exact h k' e (by simp [mapGet, hk', he])
    have h0 : (s0.value : Int) ≤ s0.refs := h k s0 (by simp [mapGet])
    have := ih hnd.2 hr
    simp only [sumValues, sumRefs]
    push_cast
    omega

/-- C11: in every state reached from `NewLimitMap()`, the wait group being
within its range, `Size()` returns the number of keys in the map and the sum of
`value` over the semaphores in the map, and the call leaves the registry as it
was. -/
theorem Size_exact_on_reachable (tr : List Event) (σ : System)
    (hrun : (System.idle NewLimitMap).run tr = some σ) (hwg : σ.m.wg < WG_LIMIT) :
    σ.m.Size = (((σ.m.limits.map Prod.fst).toFinset.card : Int), (sumValues σ.m.limits : Int)) ∧
    σ.m.SizeCall.1 = σ.m ∧ σ.m.SizeCall.2 = σ.m.Size := by
  obtain ⟨hnd, hsum⟩ := RegInv.run_preserves (System.idle NewLimitMap) σ tr
    ⟨by simp [System.idle, NewLimitMap], by simp [System.idle, NewLimitMap, sumRefs]⟩ hrun
  have hval : ∀ k e, mapGet σ.m.limits k = some e → (e.value : Int) ≤ e.refs := by
    intro k e he
    exact (System.run_value_exact tr σ k e hrun he hwg).2.2.2.1
  have hle := sumValues_le_sumRefs σ.m.limits hnd hval
  have hlim : WG_LIMIT = 2147483648 := by decide
  have hhalf : UINT_MOD / 2 = 9223372036854775808 := by decide
  obtain ⟨s1, _, s3, _, _⟩ := Size_snapshot σ.m hnd
  refine ⟨?_, rfl, rfl⟩
  have h2 := s3 (by omega)
  exact Prod.ext s1 h2

/-- Instance of C11: two holders and one blocked acquirer of "a" at capacity 2,
one holder of "b": two keys, three grants. -/
theorem Size_exact_on_reachable_witness :
    (System.idle NewLimitMap).run
      [.start "a" 2, .grant "a", .start "a" 2, .grant "a", .start "a" 2, .start "b" 4,
       .grant "b"]
      = some (System.mk
          (LimitMap.mk [("a", Semaphore.mk 3 2 2), ("b", Semaphore.mk 1 4 1)] 4) ["a"]) ∧
    (LimitMap.mk [("a", Semaphore.mk 3 2 2), ("b", Semaphore.mk 1 4 1)] 4).Size = (2, 3) ∧
    (LimitMap.mk [("a", Semaphore.mk 3 2 2), ("b", Semaphore.mk 1 4 1)] 4).Size
      = ((([("a", Semaphore.mk 3 2 2), ("b", Semaphore.mk 1 4 1)].map Prod.fst).toFinset.card
            : Int),
         (sumValues [("a", Semaphore.mk 3 2 2), ("b", Semaphore.mk 1 4 1)] : Int)) :=
  ⟨by decide, by decide,
   (Size_exact_on_reachable
      [.start "a" 2, .grant "a", .start "a" 2, .grant "a", .start "a" 2, .start "b" 4,
       .grant "b"]
      (System.mk (LimitMap.mk [("a", Semaphore.mk 3 2 2), ("b", Semaphore.mk 1 4 1)] 4) ["a"])
      (by decide) (by decide)).1⟩

end Limitmap
